import Mathlib

-- Shallow embedding of lib/Transforms/ObjCARC/ProvenanceAnalysis.cpp.
--
-- IR values are opaque identifiers (Nat), tagged with a node kind drawn from
-- the closed set used by the analysis.  The external collaborators
-- (GetUnderlyingObjCPtr, IsObjCIdentifiedObject, AliasAnalysis::alias) are
-- injected as functions, following the spec's interface boundary (sec. 6).
-- The cache is an association list; a cons shadows earlier entries, which is
-- observationally the overwrite done by CachedResults[pair] = Result.
-- related returns, besides the boolean, the final cache and a ghost trace of
-- the pairs on which relatedCheck was actually entered (instrumentation for
-- the memoization property; the C++ code returns only the boolean).
-- Recursion is made total with a fuel parameter consumed once per related
-- call; the C++ termination argument (the pending cache entry) reappears as
-- the theorem that fuel larger than the number of uncached pairs suffices.

namespace Provenance

inductive VKind where
  | generic
  | load
  | store
  | call
  | phi
  | select
  | ptrToInt
  deriving DecidableEq, Repr

/-- Four-valued alias verdict of the base alias oracle.  The constructor
partAlias models AliasAnalysis::PartialAlias. -/
inductive AliasResult where
  | noAlias
  | mustAlias
  | partAlias
  | mayAlias
  deriving DecidableEq, Repr

/-- Phi node payload: parent block identity plus the incoming
(value, predecessor-block) pairs. -/
structure PhiData where
  block : Nat
  incoming : List (Nat × Nat)
  deriving DecidableEq, Repr

/-- Select node payload: condition value and the two arms. -/
structure SelData where
  cond : Nat
  tval : Nat
  fval : Nat
  deriving DecidableEq, Repr

/-- The borrowed IR: value kinds, the forward use-graph
(uses v = list of (user, operand position of v in that user)), and the
phi/select payloads (meaningful only for values of that kind). -/
structure IR where
  numValues : Nat
  kind : Nat → VKind
  uses : Nat → List (Nat × Nat)
  phis : Nat → PhiData
  sels : Nat → SelData

/-- One ProvenanceAnalysis instance: the IR plus the injected collaborators. -/
structure PA where
  ir : IR
  GetUnderlyingObjCPtr : Nat → Nat
  IsObjCIdentifiedObject : Nat → Bool
  aliasAA : Nat → Nat → AliasResult

abbrev ValuePairTy := Nat × Nat
abbrev CachedResultsTy := List (ValuePairTy × Bool)
abbrev RRes := Bool × CachedResultsTy × List ValuePairTy

/-- PHINode::getIncomingValueForBlock: first incoming value listed for the
given predecessor block (a missing block is an IR invariant violation in
LLVM; here it defaults to 0). -/
def getIncomingValueForBlock : List (Nat × Nat) → Nat → Nat
  | [], _ => 0
  | (v, b) :: rest, blk => if b = blk then v else getIncomingValueForBlock rest blk

/-- Canonical unordered-pair ordering: `if (A > B) std::swap(A, B)`. -/
def orderPair (A B : Nat) : ValuePairTy :=
  if B < A then (B, A) else (A, B)

/-- Lookup in the cache association list. -/
def cacheLookup : CachedResultsTy → ValuePairTy → Option Bool
  | [], _ => none
  | (k, v) :: rest, k' => if k = k' then some v else cacheLookup rest k'

/-- Inner loop of isStoredObjCPointer over the uses of the current worklist
value P.  Returns none when the C++ code would `return true` (P stored as a
value, or P is a PtrToIntInst reaching the `Assume the worst` check), and
otherwise the extended worklist and visited set. -/
def scanUses (ir : IR) (P : Nat) : List (Nat × Nat) → List Nat → List Nat →
    Option (List Nat × List Nat)
  | [], wl, vis => some (wl, vis)
  | (ur, opNo) :: rest, wl, vis =>
    if ir.kind ur = VKind.store then
      if opNo = 0 then none
      else scanUses ir P rest wl vis
    else if ir.kind ur = VKind.call then
      scanUses ir P rest wl vis
    else if ir.kind P = VKind.ptrToInt then
      none
    else if ur ∈ vis then
      scanUses ir P rest wl vis
    else
      scanUses ir P rest (ur :: wl) (ur :: vis)

/-- Worklist loop of isStoredObjCPointer.  The visited set is returned as a
ghost result (the C++ code discards it); none means fuel ran out. -/
def isStoredAux (ir : IR) : Nat → List Nat → List Nat → Option (Bool × List Nat)
  | 0, _, _ => none
  | _ + 1, [], vis => some (false, vis)
  | fuel + 1, P :: rest, vis =>
    match scanUses ir P (ir.uses P) rest vis with
    | none => some (true, vis)
    | some (wl', vis') => isStoredAux ir fuel wl' vis'

/-- Test if the value of P, or any value covered by its provenance, is ever
stored within the function (not counting callees).  The fuel numValues + 2
always suffices on well-formed IR (each iteration pops one element and every
push adds a fresh value to the visited set). -/
def isStoredObjCPointer (ir : IR) (P : Nat) : Option Bool :=
  (isStoredAux ir (ir.numValues + 2) [P] [P]).map Prod.fst

/-- Type of the memoized query a structural-decomposition step recurses
through: cache in, (result, cache out, ghost trace) or fuel exhaustion. -/
abbrev RelFun := CachedResultsTy → Nat → Nat → Option RRes

/-- ProvenanceAnalysis::relatedSelect, with the recursive related call
injected as rel.  A is the Select node. -/
def relatedSelectGo (pa : PA) (rel : RelFun) (cache : CachedResultsTy)
    (A B : Nat) : Option RRes :=
  if pa.ir.kind B = VKind.select ∧ (pa.ir.sels A).cond = (pa.ir.sels B).cond then
    match rel cache (pa.ir.sels A).tval (pa.ir.sels B).tval with
    | none => none
    | some (true, c1, t1) => some (true, c1, t1)
    | some (false, c1, t1) =>
      match rel c1 (pa.ir.sels A).fval (pa.ir.sels B).fval with
      | none => none
      | some (r2, c2, t2) => some (r2, c2, t1 ++ t2)
  else
    match rel cache (pa.ir.sels A).tval B with
    | none => none
    | some (true, c1, t1) => some (true, c1, t1)
    | some (false, c1, t1) =>
      match rel c1 (pa.ir.sels A).fval B with
      | none => none
      | some (r2, c2, t2) => some (r2, c2, t1 ++ t2)

/-- Same-block branch of relatedPHI: compare corresponding incoming values
edge by edge, OR over the edges, short-circuiting. -/
def phiSameBlockLoop (pa : PA) (rel : RelFun) (B : Nat) :
    List (Nat × Nat) → CachedResultsTy → Option RRes
  | [], cache => some (false, cache, [])
  | (v, blk) :: rest, cache =>
    match rel cache v (getIncomingValueForBlock (pa.ir.phis B).incoming blk) with
    | none => none
    | some (true, c1, t1) => some (true, c1, t1)
    | some (false, c1, t1) =>
      match phiSameBlockLoop pa rel B rest c1 with
      | none => none
      | some (r2, c2, t2) => some (r2, c2, t1 ++ t2)

/-- Fallback branch of relatedPHI: check each unique incoming source of the
phi against B (UniqueSrc.insert(PV1) && related(PV1, B)). -/
def phiUniqueLoop (pa : PA) (rel : RelFun) (B : Nat) :
    List (Nat × Nat) → List Nat → CachedResultsTy → Option RRes
  | [], _, cache => some (false, cache, [])
  | (v, _) :: rest, seen, cache =>
    if v ∈ seen then phiUniqueLoop pa rel B rest seen cache
    else
      match rel cache v B with
      | none => none
      | some (true, c1, t1) => some (true, c1, t1)
      | some (false, c1, t1) =>
        match phiUniqueLoop pa rel B rest (v :: seen) c1 with
        | none => none
        | some (r2, c2, t2) => some (r2, c2, t1 ++ t2)

/-- ProvenanceAnalysis::relatedPHI, with the recursive related call injected
as rel.  A is the PHINode. -/
def relatedPHIGo (pa : PA) (rel : RelFun) (cache : CachedResultsTy)
    (A B : Nat) : Option RRes :=
  if pa.ir.kind B = VKind.phi ∧ (pa.ir.phis B).block = (pa.ir.phis A).block then
    phiSameBlockLoop pa rel B (pa.ir.phis A).incoming cache
  else
    phiUniqueLoop pa rel B (pa.ir.phis A).incoming [] cache

/-- ProvenanceAnalysis::relatedCheck, with the recursive related call
injected as rel.  The layered decision procedure: canonicalize both
operands (below, the canonicalized locals A and B of the C++ code are
written out as GetUnderlyingObjCPtr applications), quick equality check,
base alias oracle, identified-object/escape shortcuts, phi/select
structural decomposition, conservative true. -/
def relatedCheckGo (pa : PA) (rel : RelFun) (cache : CachedResultsTy)
    (A0 B0 : Nat) : Option RRes :=
  if pa.GetUnderlyingObjCPtr A0 = pa.GetUnderlyingObjCPtr B0 then
    some (true, cache, [])
  else
    match pa.aliasAA (pa.GetUnderlyingObjCPtr A0) (pa.GetUnderlyingObjCPtr B0) with
    | AliasResult.noAlias => some (false, cache, [])
    | AliasResult.mustAlias => some (true, cache, [])
    | AliasResult.partAlias => some (true, cache, [])
    | AliasResult.mayAlias =>
      if pa.IsObjCIdentifiedObject (pa.GetUnderlyingObjCPtr A0) = true ∧
          pa.ir.kind (pa.GetUnderlyingObjCPtr B0) = VKind.load then
        match isStoredObjCPointer pa.ir (pa.GetUnderlyingObjCPtr A0) with
        | none => none
        | some st => some (st, cache, [])
      else if pa.IsObjCIdentifiedObject (pa.GetUnderlyingObjCPtr A0) = true ∧
          pa.IsObjCIdentifiedObject (pa.GetUnderlyingObjCPtr B0) = true ∧
          pa.ir.kind (pa.GetUnderlyingObjCPtr A0) = VKind.load then
        match isStoredObjCPointer pa.ir (pa.GetUnderlyingObjCPtr B0) with
        | none => none
        | some st => some (st, cache, [])
      else if pa.IsObjCIdentifiedObject (pa.GetUnderlyingObjCPtr A0) = true ∧
          pa.IsObjCIdentifiedObject (pa.GetUnderlyingObjCPtr B0) = true then
        some (false, cache, [])
      else if pa.IsObjCIdentifiedObject (pa.GetUnderlyingObjCPtr A0) = false ∧
          pa.IsObjCIdentifiedObject (pa.GetUnderlyingObjCPtr B0) = true ∧
          pa.ir.kind (pa.GetUnderlyingObjCPtr A0) = VKind.load then
        match isStoredObjCPointer pa.ir (pa.GetUnderlyingObjCPtr B0) with
        | none => none
        | some st => some (st, cache, [])
      else if pa.ir.kind (pa.GetUnderlyingObjCPtr A0) = VKind.phi then
        relatedPHIGo pa rel cache (pa.GetUnderlyingObjCPtr A0) (pa.GetUnderlyingObjCPtr B0)
      else if pa.ir.kind (pa.GetUnderlyingObjCPtr B0) = VKind.phi then
        relatedPHIGo pa rel cache (pa.GetUnderlyingObjCPtr B0) (pa.GetUnderlyingObjCPtr A0)
      else if pa.ir.kind (pa.GetUnderlyingObjCPtr A0) = VKind.select then
        relatedSelectGo pa rel cache (pa.GetUnderlyingObjCPtr A0) (pa.GetUnderlyingObjCPtr B0)
      else if pa.ir.kind (pa.GetUnderlyingObjCPtr B0) = VKind.select then
        relatedSelectGo pa rel cache (pa.GetUnderlyingObjCPtr B0) (pa.GetUnderlyingObjCPtr A0)
      else some (true, cache, [])

/-- ProvenanceAnalysis::related: order the pair, insert a conservative
pending entry; if an entry already existed return it, otherwise compute the
real answer via relatedCheck and overwrite the entry.  Fuel is consumed once
per call; the trace records the pairs on which relatedCheck was entered. -/
def related (pa : PA) : Nat → CachedResultsTy → Nat → Nat → Option RRes
  | 0, _, _, _ => none
  | fuel + 1, cache, A0, B0 =>
    let p := orderPair A0 B0
    match cacheLookup cache p with
    | some v => some (v, cache, [])
    | none =>
      match relatedCheckGo pa (related pa fuel) ((p, true) :: cache) p.1 p.2 with
      | none => none
      | some (r, c2, tr) => some (r, (p, r) :: c2, p :: tr)

/-- relatedCheck at a given fuel level (the source function, with the
recursion tied back to related). -/
def relatedCheck (pa : PA) (fuel : Nat) : CachedResultsTy → Nat → Nat → Option RRes :=
  relatedCheckGo pa (related pa fuel)

/-- relatedPHI at a given fuel level. -/
def relatedPHI (pa : PA) (fuel : Nat) : CachedResultsTy → Nat → Nat → Option RRes :=
  relatedPHIGo pa (related pa fuel)

/-- relatedSelect at a given fuel level. -/
def relatedSelect (pa : PA) (fuel : Nat) : CachedResultsTy → Nat → Nat → Option RRes :=
  relatedSelectGo pa (related pa fuel)

/-- One edge of the use-graph as traversed by the escape detector: u is a
user of v that is neither a store nor a call (those are never pushed). -/
def useStep (ir : IR) (v u : Nat) : Prop :=
  ∃ op, (u, op) ∈ ir.uses v ∧ ir.kind u ≠ VKind.store ∧ ir.kind u ≠ VKind.call

/-- The condition on a traversed value P that makes the escape scan return
true: P occupies the stored-value operand of some store, or P is a
pointer-to-integer cast result having some use that is neither a store nor a
call (the use on which the `Assume the worst` check fires). -/
def escTrigger (ir : IR) (P : Nat) : Prop :=
  (∃ q ∈ ir.uses P, ir.kind q.1 = VKind.store ∧ q.2 = 0) ∨
    (ir.kind P = VKind.ptrToInt ∧
      ∃ q ∈ ir.uses P, ir.kind q.1 ≠ VKind.store ∧ ir.kind q.1 ≠ VKind.call)

/-- Cache extension: every entry visible in c is visible unchanged in c'. -/
def cacheLe (c c' : CachedResultsTy) : Prop :=
  ∀ k v, cacheLookup c k = some v → cacheLookup c' k = some v

/-- Invariant tying a call's entry cache, exit cache and computation trace:
existing entries are preserved, the traced pairs are distinct, were uncached
on entry, and are cached on exit. -/
def InvP (c c' : CachedResultsTy) (tr : List ValuePairTy) : Prop :=
  cacheLe c c' ∧ tr.Nodup ∧ (∀ k ∈ tr, cacheLookup c k = none) ∧
    ∀ k ∈ tr, ∃ v, cacheLookup c' k = some v

/-- Statement-side reading of the same-block phi loop: the result is the
short-circuit OR, over the incoming edges of A, of the relatedness of A's
incoming value and B's incoming value for the same predecessor block, with
the cache threaded left to right. -/
def phiArmsOr (pa : PA) (f : Nat) (B : Nat) :
    List (Nat × Nat) → CachedResultsTy → Bool → Prop
  | [], _, r => r = false
  | (v, blk) :: rest, c, r =>
    ∃ r1 c1 tr1,
      related pa f c v (getIncomingValueForBlock (pa.ir.phis B).incoming blk) =
        some (r1, c1, tr1) ∧
      ((r1 = true ∧ r = true) ∨ (r1 = false ∧ phiArmsOr pa f B rest c1 r))

/-- Well-formedness of an analysis instance: all value identifiers stay
below numValues through the collaborators and the IR accessors. -/
structure WF (pa : PA) : Prop where
  pos : 0 < pa.ir.numValues
  canon_lt : ∀ v, v < pa.ir.numValues →
    pa.GetUnderlyingObjCPtr v < pa.ir.numValues
  uses_lt : ∀ v, v < pa.ir.numValues →
    ∀ q ∈ pa.ir.uses v, q.1 < pa.ir.numValues
  phi_lt : ∀ v, v < pa.ir.numValues →
    ∀ q ∈ (pa.ir.phis v).incoming, q.1 < pa.ir.numValues
  sel_lt : ∀ v, v < pa.ir.numValues →
    (pa.ir.sels v).tval < pa.ir.numValues ∧ (pa.ir.sels v).fval < pa.ir.numValues

/-- All pairs of in-range value identifiers. -/
def allPairs (pa : PA) : Finset (Nat × Nat) :=
  Finset.range pa.ir.numValues ×ˢ Finset.range pa.ir.numValues

/-- Number of in-range pairs not yet cached: the measure that the pending
insert strictly decreases, bounding the recursion depth of related. -/
def uncached (pa : PA) (c : CachedResultsTy) : Nat :=
  ((allPairs pa).filter (fun p => cacheLookup c p = none)).card

/-- Concrete IR: identified object 0 whose only use is a pointer-to-integer
cast 1 with no uses of its own (a dead cast), and an unrelated load 3. -/
def irC1cex : IR where
  numValues := 3
  kind := fun v =>
    if v = 1 then VKind.ptrToInt else if v = 2 then VKind.load else VKind.generic
  uses := fun v => if v = 0 then [(1, 0)] else []
  phis := fun _ => ⟨0, []⟩
  sels := fun _ => ⟨0, 0, 0⟩

def paC1cex : PA where
  ir := irC1cex
  GetUnderlyingObjCPtr := fun v => v
  IsObjCIdentifiedObject := fun v => v = 0
  aliasAA := fun _ _ => AliasResult.mayAlias

/-- Concrete IR: identified object 0 cast to an integer by 1, the integer
being used by the generic (compare-like) value 2; 3 is an unrelated load. -/
def irC1w : IR where
  numValues := 4
  kind := fun v =>
    if v = 1 then VKind.ptrToInt else if v = 3 then VKind.load else VKind.generic
  uses := fun v => if v = 0 then [(1, 0)] else if v = 1 then [(2, 0)] else []
  phis := fun _ => ⟨0, []⟩
  sels := fun _ => ⟨0, 0, 0⟩

def paC1w : PA where
  ir := irC1w
  GetUnderlyingObjCPtr := fun v => v
  IsObjCIdentifiedObject := fun v => v = 0
  aliasAA := fun _ _ => AliasResult.mayAlias

/-- Concrete IR for the identified-object claims: two plain values with no
uses. -/
def irC8 : IR where
  numValues := 2
  kind := fun _ => VKind.generic
  uses := fun _ => []
  phis := fun _ => ⟨0, []⟩
  sels := fun _ => ⟨0, 0, 0⟩

def paC8 : PA where
  ir := irC8
  GetUnderlyingObjCPtr := fun v => v
  IsObjCIdentifiedObject := fun _ => true
  aliasAA := fun _ _ => AliasResult.mayAlias

/-- Analysis instance whose oracle answers NoAlias on every pair of distinct
values and MayAlias on equal ones (a sound reflexive oracle). -/
def paC2 : PA where
  ir := irC8
  GetUnderlyingObjCPtr := fun v => v
  IsObjCIdentifiedObject := fun _ => false
  aliasAA := fun x y => if x = y then AliasResult.mayAlias else AliasResult.noAlias

/-- Concrete IR: value 0 is a phi whose single incoming value is itself (a
self-referential back edge), value 1 is generic. -/
def irC4 : IR where
  numValues := 2
  kind := fun v => if v = 0 then VKind.phi else VKind.generic
  uses := fun _ => []
  phis := fun v => if v = 0 then ⟨0, [(0, 0)]⟩ else ⟨0, []⟩
  sels := fun _ => ⟨0, 0, 0⟩

def paC4 : PA where
  ir := irC4
  GetUnderlyingObjCPtr := fun v => v
  IsObjCIdentifiedObject := fun _ => false
  aliasAA := fun _ _ => AliasResult.mayAlias

/-- Concrete IR: 0 and 1 are selects on the same condition value 6; the true
arms 2 and 3 are disjoint per the oracle, the false arms 4 and 5 overlap. -/
def irC6 : IR where
  numValues := 7
  kind := fun v => if v = 0 ∨ v = 1 then VKind.select else VKind.generic
  uses := fun _ => []
  phis := fun _ => ⟨0, []⟩
  sels := fun v =>
    if v = 0 then ⟨6, 2, 4⟩ else if v = 1 then ⟨6, 3, 5⟩ else ⟨0, 0, 0⟩

def paC6 : PA where
  ir := irC6
  GetUnderlyingObjCPtr := fun v => v
  IsObjCIdentifiedObject := fun _ => false
  aliasAA := fun x y =>
    if (x = 2 ∧ y = 3) ∨ (x = 3 ∧ y = 2) then AliasResult.noAlias
    else if (x = 4 ∧ y = 5) ∨ (x = 5 ∧ y = 4) then AliasResult.mustAlias
    else AliasResult.mayAlias

/-- Concrete IR: 0 and 1 are phis in the same block 9 with predecessor
blocks 10 and 11; corresponding arms (2,4) and (3,5) are disjoint per the
oracle while the cross pair (2,5) would relate. -/
def irC7 : IR where
  numValues := 6
  kind := fun v => if v = 0 ∨ v = 1 then VKind.phi else VKind.generic
  uses := fun _ => []
  phis := fun v =>
    if v = 0 then ⟨9, [(2, 10), (3, 11)]⟩
    else if v = 1 then ⟨9, [(4, 10), (5, 11)]⟩ else ⟨0, []⟩
  sels := fun _ => ⟨0, 0, 0⟩

def paC7 : PA where
  ir := irC7
  GetUnderlyingObjCPtr := fun v => v
  IsObjCIdentifiedObject := fun _ => false
  aliasAA := fun x y =>
    if (x = 2 ∧ y = 4) ∨ (x = 4 ∧ y = 2) then AliasResult.noAlias
    else if (x = 3 ∧ y = 5) ∨ (x = 5 ∧ y = 3) then AliasResult.noAlias
    else if (x = 2 ∧ y = 5) ∨ (x = 5 ∧ y = 2) then AliasResult.mustAlias
    else AliasResult.mayAlias

/-- Concrete IR: identified object 0 passed only as an argument of call 2,
and an unrelated load 1. -/
def irC9 : IR where
  numValues := 3
  kind := fun v =>
    if v = 1 then VKind.load else if v = 2 then VKind.call else VKind.generic
  uses := fun v => if v = 0 then [(2, 0)] else []
  phis := fun _ => ⟨0, []⟩
  sels := fun _ => ⟨0, 0, 0⟩

def paC9 : PA where
  ir := irC9
  GetUnderlyingObjCPtr := fun v => v
  IsObjCIdentifiedObject := fun v => v = 0
  aliasAA := fun _ _ => AliasResult.mayAlias

/-- Concrete IR: 0 and 1 are identified load results; 1 is stored as a value
by store 2 while 0 has no uses, so only the escape check on the
address-smaller element 0 decides the query. -/
def irC10 : IR where
  numValues := 3
  kind := fun v => if v = 0 ∨ v = 1 then VKind.load else VKind.store
  uses := fun v => if v = 1 then [(2, 0)] else []
  phis := fun _ => ⟨0, []⟩
  sels := fun _ => ⟨0, 0, 0⟩

def paC10 : PA where
  ir := irC10
  GetUnderlyingObjCPtr := fun v => v
  IsObjCIdentifiedObject := fun v => v = 0 ∨ v = 1
  aliasAA := fun _ _ => AliasResult.mayAlias

theorem cacheLookup_cons (k : ValuePairTy) (v : Bool) (c : CachedResultsTy)
    (p : ValuePairTy) :
    cacheLookup ((k, v) :: c) p = if k = p then some v else cacheLookup c p := rfl

theorem orderPair_symm (A B : Nat) : orderPair A B = orderPair B A := by
  unfold orderPair
  rcases Nat.lt_trichotomy A B with h | h | h
  · rw [if_neg (by omega), if_pos h]
  · subst h; rfl
  · rw [if_pos h, if_neg (by omega)]

theorem orderPair_cases (A B : Nat) :
    orderPair A B = (A, B) ∨ orderPair A B = (B, A) := by
  unfold orderPair
  split
  · exact Or.inr rfl
  · exact Or.inl rfl

/-- Unfolding equation for related at positive fuel. -/
theorem related_succ (pa : PA) (f : Nat) (c : CachedResultsTy) (A B : Nat) :
    related pa (f + 1) c A B =
      match cacheLookup c (orderPair A B) with
      | some v => some (v, c, [])
      | none =>
        match relatedCheckGo pa (related pa f) ((orderPair A B, true) :: c)
            (orderPair A B).1 (orderPair A B).2 with
        | none => none
        | some (r, c2, tr) =>
          some (r, (orderPair A B, r) :: c2, orderPair A B :: tr) := rfl

/-- A query whose ordered pair is already cached returns the stored value
immediately, leaving the cache unchanged and computing nothing. -/
theorem related_hit (pa : PA) (f : Nat) (c : CachedResultsTy) (A B a b : Nat)
    (v : Bool) (hord : orderPair A B = (a, b))
    (hhit : cacheLookup c (a, b) = some v) :
    related pa (f + 1) c A B = some (v, c, []) := by
  rw [related_succ, hord, hhit]

/-- A query whose ordered pair is uncached inserts the pending true entry,
runs relatedCheck, and overwrites the entry with the computed answer. -/
theorem related_miss (pa : PA) (f : Nat) (c : CachedResultsTy) (A B a b : Nat)
    (hord : orderPair A B = (a, b)) (hmiss : cacheLookup c (a, b) = none) :
    related pa (f + 1) c A B =
      match relatedCheckGo pa (related pa f) (((a, b), true) :: c) a b with
      | none => none
      | some (r, c2, tr) => some (r, ((a, b), r) :: c2, (a, b) :: tr) := by
  rw [related_succ, hord, hmiss]

/-- relatedCheck on canonically distinct operands the oracle rules disjoint
answers false. -/
theorem checkGo_noAlias (pa : PA) (rel : RelFun) (c : CachedResultsTy)
    (A0 B0 : Nat)
    (hne : pa.GetUnderlyingObjCPtr A0 ≠ pa.GetUnderlyingObjCPtr B0)
    (hAA : pa.aliasAA (pa.GetUnderlyingObjCPtr A0) (pa.GetUnderlyingObjCPtr B0) =
      AliasResult.noAlias) :
    relatedCheckGo pa rel c A0 B0 = some (false, c, []) := by
  unfold relatedCheckGo
  rw [if_neg hne, hAA]

/-- relatedCheck when the canonical first operand is identified and the
canonical second is a load: the answer is the escape check on the first. -/
theorem checkGo_idA_load (pa : PA) (rel : RelFun) (c : CachedResultsTy)
    (A0 B0 : Nat) (st : Bool)
    (hne : pa.GetUnderlyingObjCPtr A0 ≠ pa.GetUnderlyingObjCPtr B0)
    (hAA : pa.aliasAA (pa.GetUnderlyingObjCPtr A0) (pa.GetUnderlyingObjCPtr B0) =
      AliasResult.mayAlias)
    (hIdA : pa.IsObjCIdentifiedObject (pa.GetUnderlyingObjCPtr A0) = true)
    (hkB : pa.ir.kind (pa.GetUnderlyingObjCPtr B0) = VKind.load)
    (hst : isStoredObjCPointer pa.ir (pa.GetUnderlyingObjCPtr A0) = some st) :
    relatedCheckGo pa rel c A0 B0 = some (st, c, []) := by
  unfold relatedCheckGo
  rw [if_neg hne, hAA]
  show (if _ then _ else _) = _
  rw [if_pos ⟨hIdA, hkB⟩, hst]

/-- relatedCheck when both canonical operands are identified and neither is
a load: two distinct identified objects cannot alias, answer false. -/
theorem checkGo_both_id (pa : PA) (rel : RelFun) (c : CachedResultsTy)
    (A0 B0 : Nat)
    (hne : pa.GetUnderlyingObjCPtr A0 ≠ pa.GetUnderlyingObjCPtr B0)
    (hAA : pa.aliasAA (pa.GetUnderlyingObjCPtr A0) (pa.GetUnderlyingObjCPtr B0) =
      AliasResult.mayAlias)
    (hIdA : pa.IsObjCIdentifiedObject (pa.GetUnderlyingObjCPtr A0) = true)
    (hIdB : pa.IsObjCIdentifiedObject (pa.GetUnderlyingObjCPtr B0) = true)
    (hkA : pa.ir.kind (pa.GetUnderlyingObjCPtr A0) ≠ VKind.load)
    (hkB : pa.ir.kind (pa.GetUnderlyingObjCPtr B0) ≠ VKind.load) :
    relatedCheckGo pa rel c A0 B0 = some (false, c, []) := by
  unfold relatedCheckGo
  rw [if_neg hne, hAA]
  show (if _ then _ else _) = _
  rw [if_neg (fun h => hkB h.2), if_neg (fun h => hkA h.2.2),
    if_pos ⟨hIdA, hIdB⟩]

/-- relatedCheck when only the canonical second operand is identified and
the canonical first is a load: the answer is the escape check on the
second. -/
theorem checkGo_idB_load (pa : PA) (rel : RelFun) (c : CachedResultsTy)
    (A0 B0 : Nat) (st : Bool)
    (hne : pa.GetUnderlyingObjCPtr A0 ≠ pa.GetUnderlyingObjCPtr B0)
    (hAA : pa.aliasAA (pa.GetUnderlyingObjCPtr A0) (pa.GetUnderlyingObjCPtr B0) =
      AliasResult.mayAlias)
    (hIdA : pa.IsObjCIdentifiedObject (pa.GetUnderlyingObjCPtr A0) = false)
    (hIdB : pa.IsObjCIdentifiedObject (pa.GetUnderlyingObjCPtr B0) = true)
    (hkA : pa.ir.kind (pa.GetUnderlyingObjCPtr A0) = VKind.load)
    (hst : isStoredObjCPointer pa.ir (pa.GetUnderlyingObjCPtr B0) = some st) :
    relatedCheckGo pa rel c A0 B0 = some (st, c, []) := by
  unfold relatedCheckGo
  rw [if_neg hne, hAA]
  show (if _ then _ else _) = _
  rw [if_neg (fun h => by rw [hIdA] at h; exact Bool.false_ne_true h.1),
    if_neg (fun h => by rw [hIdA] at h; exact Bool.false_ne_true h.1),
    if_neg (fun h => by rw [hIdA] at h; exact Bool.false_ne_true h.1),
    if_pos ⟨hIdA, hIdB, hkA⟩, hst]

/-- relatedCheck falling through to the phi decomposition on the canonical
first operand. -/
theorem checkGo_phiA (pa : PA) (rel : RelFun) (c : CachedResultsTy)
    (A0 B0 : Nat)
    (hne : pa.GetUnderlyingObjCPtr A0 ≠ pa.GetUnderlyingObjCPtr B0)
    (hAA : pa.aliasAA (pa.GetUnderlyingObjCPtr A0) (pa.GetUnderlyingObjCPtr B0) =
      AliasResult.mayAlias)
    (hIdA : pa.IsObjCIdentifiedObject (pa.GetUnderlyingObjCPtr A0) = false)
    (hIdB : pa.IsObjCIdentifiedObject (pa.GetUnderlyingObjCPtr B0) = false)
    (hkA : pa.ir.kind (pa.GetUnderlyingObjCPtr A0) = VKind.phi) :
    relatedCheckGo pa rel c A0 B0 =
      relatedPHIGo pa rel c (pa.GetUnderlyingObjCPtr A0)
        (pa.GetUnderlyingObjCPtr B0) := by
  unfold relatedCheckGo
  rw [if_neg hne, hAA]
  show (if _ then _ else _) = _
  rw [if_neg (fun h => by rw [hIdA] at h; exact Bool.false_ne_true h.1),
    if_neg (fun h => by rw [hIdA] at h; exact Bool.false_ne_true h.1),
    if_neg (fun h => by rw [hIdA] at h; exact Bool.false_ne_true h.1),
    if_neg (fun h => by rw [hIdB] at h; exact Bool.false_ne_true h.2.1),
    if_pos hkA]

/-- relatedCheck falling through to the select decomposition on the
canonical first operand. -/
theorem checkGo_selA (pa : PA) (rel : RelFun) (c : CachedResultsTy)
    (A0 B0 : Nat)
    (hne : pa.GetUnderlyingObjCPtr A0 ≠ pa.GetUnderlyingObjCPtr B0)
    (hAA : pa.aliasAA (pa.GetUnderlyingObjCPtr A0) (pa.GetUnderlyingObjCPtr B0) =
      AliasResult.mayAlias)
    (hIdA : pa.IsObjCIdentifiedObject (pa.GetUnderlyingObjCPtr A0) = false)
    (hIdB : pa.IsObjCIdentifiedObject (pa.GetUnderlyingObjCPtr B0) = false)
    (hkA : pa.ir.kind (pa.GetUnderlyingObjCPtr A0) = VKind.select)
    (hkB : pa.ir.kind (pa.GetUnderlyingObjCPtr B0) ≠ VKind.phi) :
    relatedCheckGo pa rel c A0 B0 =
      relatedSelectGo pa rel c (pa.GetUnderlyingObjCPtr A0)
        (pa.GetUnderlyingObjCPtr B0) := by
  unfold relatedCheckGo
  rw [if_neg hne, hAA]
  show (if _ then _ else _) = _
  rw [if_neg (fun h => by rw [hIdA] at h; exact Bool.false_ne_true h.1),
    if_neg (fun h => by rw [hIdA] at h; exact Bool.false_ne_true h.1),
    if_neg (fun h => by rw [hIdA] at h; exact Bool.false_ne_true h.1),
    if_neg (fun h => by rw [hIdB] at h; exact Bool.false_ne_true h.2.1),
    if_neg (fun h => by rw [hkA] at h; exact VKind.noConfusion h),
    if_neg hkB, if_pos hkA]

/-- A use list consisting only of call users neither triggers an escape nor
pushes anything: calls are ignored by the traversal. -/
theorem scanUses_callOnly (ir : IR) (P : Nat) (lst : List (Nat × Nat))
    (wl vis : List Nat) (h : ∀ q ∈ lst, ir.kind q.1 = VKind.call) :
    scanUses ir P lst wl vis = some (wl, vis) := by
  induction lst with
  | nil => rfl
  | cons q rest ih =>
    obtain ⟨ur, opNo⟩ := q
    have hq : ir.kind ur = VKind.call := h (ur, opNo) (List.mem_cons_self _ _)
    show (if ir.kind ur = VKind.store then _ else _) = _
    rw [if_neg (fun hc => by rw [hq] at hc; exact VKind.noConfusion hc),
      if_pos hq]
    exact ih (fun q hq' => h q (List.mem_cons_of_mem _ hq'))

/-- A value used only as a call argument is never considered stored. -/
theorem isStored_callOnly (ir : IR) (P : Nat)
    (h : ∀ q ∈ ir.uses P, ir.kind q.1 = VKind.call) :
    isStoredObjCPointer ir P = some false := by
  show (isStoredAux ir (ir.numValues + 1 + 1) [P] [P]).map Prod.fst = some false
  show (match scanUses ir P (ir.uses P) [] [P] with
    | none => some (true, [P])
    | some (wl', vis') => isStoredAux ir (ir.numValues + 1) wl' vis').map
      Prod.fst = some false
  rw [scanUses_callOnly ir P _ [] [P] h]
  rfl

/-- C2: for all values A and B whose pair is not yet cached, if the base
alias oracle (sound and symmetric, per its interface contract) answers
NoAlias on the canonicalized pair, then related(A, B) returns false. -/
theorem c2_noalias_related_false (pa : PA) (fuel : Nat) (c : CachedResultsTy)
    (A B : Nat) (hfuel : 0 < fuel)
    (hmiss : cacheLookup c (orderPair A B) = none)
    (hrefl : ∀ X, pa.aliasAA X X ≠ AliasResult.noAlias)
    (hsymm : ∀ X Y, pa.aliasAA X Y = pa.aliasAA Y X)
    (hNo : pa.aliasAA (pa.GetUnderlyingObjCPtr A) (pa.GetUnderlyingObjCPtr B) =
      AliasResult.noAlias) :
    Option.map Prod.fst (related pa fuel c A B) = some false := by
  obtain ⟨f, rfl⟩ : ∃ f, fuel = f + 1 := ⟨fuel - 1, by omega⟩
  rcases orderPair_cases A B with hord | hord
  · rw [related_miss pa f c A B A B hord (hord ▸ hmiss),
      checkGo_noAlias pa _ _ A B (fun h => hrefl _ (h ▸ hNo)) hNo]
    rfl
  · have hNo' : pa.aliasAA (pa.GetUnderlyingObjCPtr B) (pa.GetUnderlyingObjCPtr A) =
        AliasResult.noAlias := (hsymm _ _).trans hNo
    rw [related_miss pa f c A B B A hord (hord ▸ hmiss),
      checkGo_noAlias pa _ _ B A (fun h => hrefl _ (h ▸ hNo')) hNo']
    rfl

theorem c2_noalias_related_false_witness :
    cacheLookup [] (orderPair 0 1) = none ∧
    paC2.aliasAA (paC2.GetUnderlyingObjCPtr 0) (paC2.GetUnderlyingObjCPtr 1) =
      AliasResult.noAlias ∧
    Option.map Prod.fst (related paC2 3 [] 0 1) = some false :=
  ⟨rfl, rfl,
    c2_noalias_related_false paC2 3 [] 0 1 (by decide) rfl
      (fun X => by
        show (if X = X then AliasResult.mayAlias else AliasResult.noAlias) ≠
          AliasResult.noAlias
        rw [if_pos rfl]
        exact fun h => AliasResult.noConfusion h)
      (fun X Y => by
        show (if X = Y then AliasResult.mayAlias else AliasResult.noAlias) =
          (if Y = X then AliasResult.mayAlias else AliasResult.noAlias)
        rcases eq_or_ne X Y with h | h
        · subst h; rfl
        · rw [if_neg h, if_neg (Ne.symm h)])
      rfl⟩

/-- C3: on one analysis instance with fixed IR and fixed collaborator
answers, related(A, B) equals related(B, A): both queries canonicalize to
the same address-ordered pair before touching the cache. -/
theorem c3_related_symm (pa : PA) (fuel : Nat) (c : CachedResultsTy)
    (A B : Nat) :
    related pa fuel c A B = related pa fuel c B A := by
  cases fuel with
  | zero => rfl
  | succ f => rw [related_succ, related_succ, orderPair_symm A B]

/-- C8: two distinct identified objects (after canonicalization, oracle
answering MayAlias), neither of which is a load result nor stored, are
reported unrelated. -/
theorem c8_identified_unrelated (pa : PA) (fuel : Nat) (c : CachedResultsTy)
    (A B a b : Nat) (hfuel : 0 < fuel)
    (hord : orderPair A B = (a, b))
    (hmiss : cacheLookup c (a, b) = none)
    (hne : pa.GetUnderlyingObjCPtr a ≠ pa.GetUnderlyingObjCPtr b)
    (hAA : pa.aliasAA (pa.GetUnderlyingObjCPtr a) (pa.GetUnderlyingObjCPtr b) =
      AliasResult.mayAlias)
    (hIdA : pa.IsObjCIdentifiedObject (pa.GetUnderlyingObjCPtr a) = true)
    (hIdB : pa.IsObjCIdentifiedObject (pa.GetUnderlyingObjCPtr b) = true)
    (hkA : pa.ir.kind (pa.GetUnderlyingObjCPtr a) ≠ VKind.load)
    (hkB : pa.ir.kind (pa.GetUnderlyingObjCPtr b) ≠ VKind.load)
    (hsA : isStoredObjCPointer pa.ir (pa.GetUnderlyingObjCPtr a) = some false)
    (hsB : isStoredObjCPointer pa.ir (pa.GetUnderlyingObjCPtr b) = some false) :
    Option.map Prod.fst (related pa fuel c A B) = some false := by
  obtain ⟨f, rfl⟩ : ∃ f, fuel = f + 1 := ⟨fuel - 1, by omega⟩
  rw [related_miss pa f c A B a b hord hmiss,
    checkGo_both_id pa _ _ a b hne hAA hIdA hIdB hkA hkB]
  rfl

theorem c8_identified_unrelated_witness :
    paC8.IsObjCIdentifiedObject 0 = true ∧
    paC8.IsObjCIdentifiedObject 1 = true ∧
    isStoredObjCPointer paC8.ir 0 = some false ∧
    Option.map Prod.fst (related paC8 3 [] 0 1) = some false :=
  ⟨by decide, by decide, by decide,
    c8_identified_unrelated paC8 3 [] 0 1 0 1 (by decide) (by decide)
      (by decide) (by decide) (by decide) (by decide) (by decide)
      (by decide) (by decide) (by decide) (by decide)⟩

/-- C9: an identified object used only as a call argument is not considered
escaped (callee bodies are not inspected), so against an unrelated load
result the query answers false.  The disjunction covers both placements of
the identified object in the address-ordered pair. -/
theorem c9_call_argument_no_escape (pa : PA) (fuel : Nat)
    (c : CachedResultsTy) (A B a b : Nat) (hfuel : 0 < fuel)
    (hord : orderPair A B = (a, b))
    (hmiss : cacheLookup c (a, b) = none)
    (hne : pa.GetUnderlyingObjCPtr a ≠ pa.GetUnderlyingObjCPtr b)
    (hAA : pa.aliasAA (pa.GetUnderlyingObjCPtr a) (pa.GetUnderlyingObjCPtr b) =
      AliasResult.mayAlias)
    (hcase :
      (pa.IsObjCIdentifiedObject (pa.GetUnderlyingObjCPtr a) = true ∧
        pa.ir.kind (pa.GetUnderlyingObjCPtr b) = VKind.load ∧
        ∀ q ∈ pa.ir.uses (pa.GetUnderlyingObjCPtr a), pa.ir.kind q.1 = VKind.call) ∨
      (pa.IsObjCIdentifiedObject (pa.GetUnderlyingObjCPtr b) = true ∧
        pa.IsObjCIdentifiedObject (pa.GetUnderlyingObjCPtr a) = false ∧
        pa.ir.kind (pa.GetUnderlyingObjCPtr a) = VKind.load ∧
        ∀ q ∈ pa.ir.uses (pa.GetUnderlyingObjCPtr b), pa.ir.kind q.1 = VKind.call)) :
    Option.map Prod.fst (related pa fuel c A B) = some false := by
  obtain ⟨f, rfl⟩ : ∃ f, fuel = f + 1 := ⟨fuel - 1, by omega⟩
  rcases hcase with ⟨h1, h2, h3⟩ | ⟨h1, h2, h3, h4⟩
  · rw [related_miss pa f c A B a b hord hmiss,
      checkGo_idA_load pa _ _ a b false hne hAA h1 h2
        (isStored_callOnly _ _ h3)]
    rfl
  · rw [related_miss pa f c A B a b hord hmiss,
      checkGo_idB_load pa _ _ a b false hne hAA h2 h1 h3
        (isStored_callOnly _ _ h4)]
    rfl

theorem c9_call_argument_no_escape_witness :
    paC9.IsObjCIdentifiedObject 0 = true ∧
    paC9.ir.kind 1 = VKind.load ∧
    (∀ q ∈ paC9.ir.uses 0, paC9.ir.kind q.1 = VKind.call) ∧
    Option.map Prod.fst (related paC9 3 [] 0 1) = some false :=
  ⟨by decide, by decide, by decide,
    c9_call_argument_no_escape paC9 3 [] 0 1 0 1 (by decide) (by decide)
      (by decide) (by decide) (by decide)
      (Or.inl ⟨by decide, by decide, by decide⟩)⟩

/-- C10: when both canonicalized operands are identified objects and both
are load results, the answer is the escape check applied to the
canonicalization of the first element of the address-ordered pair; the
other operand's escape status is never consulted. -/
theorem c10_both_loads_first_escape (pa : PA) (fuel : Nat)
    (c : CachedResultsTy) (A B a b : Nat) (st : Bool) (hfuel : 0 < fuel)
    (hord : orderPair A B = (a, b))
    (hmiss : cacheLookup c (a, b) = none)
    (hne : pa.GetUnderlyingObjCPtr a ≠ pa.GetUnderlyingObjCPtr b)
    (hAA : pa.aliasAA (pa.GetUnderlyingObjCPtr a) (pa.GetUnderlyingObjCPtr b) =
      AliasResult.mayAlias)
    (hIdA : pa.IsObjCIdentifiedObject (pa.GetUnderlyingObjCPtr a) = true)
    (hIdB : pa.IsObjCIdentifiedObject (pa.GetUnderlyingObjCPtr b) = true)
    (hkA : pa.ir.kind (pa.GetUnderlyingObjCPtr a) = VKind.load)
    (hkB : pa.ir.kind (pa.GetUnderlyingObjCPtr b) = VKind.load)
    (hst : isStoredObjCPointer pa.ir (pa.GetUnderlyingObjCPtr a) = some st) :
    Option.map Prod.fst (related pa fuel c A B) = some st := by
  obtain ⟨f, rfl⟩ : ∃ f, fuel = f + 1 := ⟨fuel - 1, by omega⟩
  rw [related_miss pa f c A B a b hord hmiss,
    checkGo_idA_load pa _ _ a b st hne hAA hIdA hkB hst]
  rfl

/-- The use scan returns the escape signal exactly when some use in the
list is a value-position store, or is neither a store nor a call while the
scanned value is a pointer-to-integer cast. -/
theorem scanUses_none_iff (ir : IR) (P : Nat) :
    ∀ (lst : List (Nat × Nat)) (wl vis : List Nat),
      scanUses ir P lst wl vis = none ↔
      ∃ q ∈ lst, (ir.kind q.1 = VKind.store ∧ q.2 = 0) ∨
        (ir.kind q.1 ≠ VKind.store ∧ ir.kind q.1 ≠ VKind.call ∧
          ir.kind P = VKind.ptrToInt) := by
  intro lst
  induction lst with
  | nil => intro wl vis; simp [scanUses]
  | cons q rest ih =>
    obtain ⟨ur, opNo⟩ := q
    intro wl vis
    simp only [scanUses]
    split
    case isTrue hst =>
      split
      case isTrue hop =>
        constructor
        · exact fun _ => ⟨(ur, opNo), List.mem_cons_self _ _, Or.inl ⟨hst, hop⟩⟩
        · exact fun _ => rfl
      case isFalse hop =>
        rw [ih]
        constructor
        · rintro ⟨q, hq, hc⟩; exact ⟨q, List.mem_cons_of_mem _ hq, hc⟩
        · rintro ⟨q, hq, hc⟩
          rcases List.mem_cons.mp hq with rfl | hq'
          · rcases hc with ⟨-, h0⟩ | ⟨hns, -, -⟩
            · exact absurd h0 hop
            · exact absurd hst hns
          · exact ⟨q, hq', hc⟩
    case isFalse hst =>
      split
      case isTrue hcall =>
        rw [ih]
        constructor
        · rintro ⟨q, hq, hc⟩; exact ⟨q, List.mem_cons_of_mem _ hq, hc⟩
        · rintro ⟨q, hq, hc⟩
          rcases List.mem_cons.mp hq with rfl | hq'
          · rcases hc with ⟨hs, -⟩ | ⟨-, hnc, -⟩
            · exact absurd hs hst
            · exact absurd hcall hnc
          · exact ⟨q, hq', hc⟩
      case isFalse hcall =>
        split
        case isTrue hp =>
          constructor
          · exact fun _ => ⟨(ur, opNo), List.mem_cons_self _ _,
              Or.inr ⟨hst, hcall, hp⟩⟩
          · exact fun _ => rfl
        case isFalse hp =>
          have hfilter : (∃ q ∈ rest,
              (ir.kind q.1 = VKind.store ∧ q.2 = 0) ∨
                (ir.kind q.1 ≠ VKind.store ∧ ir.kind q.1 ≠ VKind.call ∧
                  ir.kind P = VKind.ptrToInt)) ↔
              ∃ q ∈ (ur, opNo) :: rest,
              (ir.kind q.1 = VKind.store ∧ q.2 = 0) ∨
                (ir.kind q.1 ≠ VKind.store ∧ ir.kind q.1 ≠ VKind.call ∧
                  ir.kind P = VKind.ptrToInt) := by
            constructor
            · rintro ⟨q, hq, hc⟩; exact ⟨q, List.mem_cons_of_mem _ hq, hc⟩
            · rintro ⟨q, hq, hc⟩
              rcases List.mem_cons.mp hq with rfl | hq'
              · rcases hc with ⟨hs, -⟩ | ⟨-, -, hpp⟩
                · exact absurd hs hst
                · exact absurd hpp hp
              · exact ⟨q, hq', hc⟩
          split
          · rw [ih]; exact hfilter
          · rw [ih]; exact hfilter

/-- The use scan of the worklist value P over a use list of P: the escape
signal is exactly escTrigger. -/
theorem scanUses_trigger (ir : IR) (P : Nat) (wl vis : List Nat) :
    scanUses ir P (ir.uses P) wl vis = none ↔ escTrigger ir P := by
  rw [scanUses_none_iff]
  unfold escTrigger
  constructor
  · rintro ⟨q, hq, ⟨h1, h2⟩ | ⟨h1, h2, h3⟩⟩
    · exact Or.inl ⟨q, hq, h1, h2⟩
    · exact Or.inr ⟨h3, q, hq, h1, h2⟩
  · rintro (⟨q, hq, h1, h2⟩ | ⟨h3, q, hq, h1, h2⟩)
    · exact ⟨q, hq, Or.inl ⟨h1, h2⟩⟩
    · exact ⟨q, hq, Or.inr ⟨h1, h2, h3⟩⟩

/-- Successful scan: it appends a block fr of fresh pushed values to both
the worklist and the visited set, every pushed value is a user from the
list, and every non-store non-call user of the list ends up visited. -/
theorem scanUses_some (ir : IR) (P : Nat) :
    ∀ (lst : List (Nat × Nat)) (wl vis wl' vis' : List Nat),
      scanUses ir P lst wl vis = some (wl', vis') →
      ∃ fr : List Nat,
        wl' = fr ++ wl ∧ vis' = fr ++ vis ∧ fr.Nodup ∧
        (∀ x ∈ fr, x ∉ vis) ∧
        (∀ x ∈ fr, ∃ q ∈ lst, q.1 = x) ∧
        (∀ q ∈ lst, ir.kind q.1 ≠ VKind.store → ir.kind q.1 ≠ VKind.call →
          q.1 ∈ vis') := by
  intro lst
  induction lst with
  | nil =>
    intro wl vis wl' vis' h
    simp only [scanUses, Option.some.injEq, Prod.mk.injEq] at h
    obtain ⟨rfl, rfl⟩ := h
    exact ⟨[], rfl, rfl, List.nodup_nil, fun x hx => absurd hx (List.not_mem_nil x),
      fun x hx => absurd hx (List.not_mem_nil x),
      fun q hq => absurd hq (List.not_mem_nil q)⟩
  | cons q rest ih =>
    obtain ⟨ur, opNo⟩ := q
    intro wl vis wl' vis' h
    simp only [scanUses] at h
    split at h
    case isTrue hst =>
      split at h
      case isTrue hop => exact absurd h (by simp)
      case isFalse hop =>
        obtain ⟨fr, h1, h2, h3, h4, h5, h6⟩ := ih _ _ _ _ h
        refine ⟨fr, h1, h2, h3, h4, ?_, ?_⟩
        · intro x hx
          obtain ⟨q, hq, he⟩ := h5 x hx
          exact ⟨q, List.mem_cons_of_mem _ hq, he⟩
        · intro q hq hns hnc
          rcases List.mem_cons.mp hq with rfl | hq'
          · exact absurd hst hns
          · exact h6 q hq' hns hnc
    case isFalse hst =>
      split at h
      case isTrue hcall =>
        obtain ⟨fr, h1, h2, h3, h4, h5, h6⟩ := ih _ _ _ _ h
        refine ⟨fr, h1, h2, h3, h4, ?_, ?_⟩
        · intro x hx
          obtain ⟨q, hq, he⟩ := h5 x hx
          exact ⟨q, List.mem_cons_of_mem _ hq, he⟩
        · intro q hq hns hnc
          rcases List.mem_cons.mp hq with rfl | hq'
          · exact absurd hcall hnc
          · exact h6 q hq' hns hnc
      case isFalse hcall =>
        split at h
        case isTrue hp => exact absurd h (by simp)
        case isFalse hp =>
          split at h
          case isTrue hmem =>
            obtain ⟨fr, h1, h2, h3, h4, h5, h6⟩ := ih _ _ _ _ h
            refine ⟨fr, h1, h2, h3, h4, ?_, ?_⟩
            · intro x hx
              obtain ⟨q, hq, he⟩ := h5 x hx
              exact ⟨q, List.mem_cons_of_mem _ hq, he⟩
            · intro q hq hns hnc
              rcases List.mem_cons.mp hq with rfl | hq'
              · rw [h2]; exact List.mem_append_right _ hmem
              · exact h6 q hq' hns hnc
          case isFalse hmem =>
            obtain ⟨fr, h1, h2, h3, h4, h5, h6⟩ := ih _ _ _ _ h
            refine ⟨fr ++ [ur], ?_, ?_, ?_, ?_, ?_, ?_⟩
            · rw [h1, List.append_assoc]; rfl
            · rw [h2, List.append_assoc]; rfl
            · refine List.Nodup.append h3 (List.nodup_singleton ur) ?_
              intro x hx hx'
              rw [List.mem_singleton] at hx'
              subst hx'
              exact h4 x hx (List.mem_cons_self _ _)
            · intro x hx
              rcases List.mem_append.mp hx with hxf | hxu
              · exact fun hv => h4 x hxf (List.mem_cons_of_mem _ hv)
              · rw [List.mem_singleton] at hxu; subst hxu; exact hmem
            · intro x hx
              rcases List.mem_append.mp hx with hxf | hxu
              · obtain ⟨q, hq, he⟩ := h5 x hxf
                exact ⟨q, List.mem_cons_of_mem _ hq, he⟩
              · rw [List.mem_singleton] at hxu
                exact ⟨(ur, opNo), List.mem_cons_self _ _, hxu.symm⟩
            · intro q hq hns hnc
              rcases List.mem_cons.mp hq with rfl | hq'
              · rw [h2]; exact List.mem_append_right _ (List.mem_cons_self _ _)
              · exact h6 q hq' hns hnc

/-- If the traversal finishes with false, the final visited set contains
the initial one, no visited value triggers an escape, and the visited set
is closed under the traversed use edges.  The hypothesis states the same
facts for values already processed (visited but no longer queued). -/
theorem isStoredAux_false (ir : IR) :
    ∀ (f : Nat) (wl vis visF : List Nat),
      isStoredAux ir f wl vis = some (false, visF) →
      (∀ v ∈ vis, v ∉ wl → ¬ escTrigger ir v ∧ ∀ u, useStep ir v u → u ∈ vis) →
      (∀ v ∈ vis, v ∈ visF) ∧
      ∀ v ∈ visF, ¬ escTrigger ir v ∧ ∀ u, useStep ir v u → u ∈ visF := by
  intro f
  induction f with
  | zero => intro wl vis visF h _; simp [isStoredAux] at h
  | succ f ih =>
    intro wl vis visF h hp
    cases wl with
    | nil =>
      simp only [isStoredAux, Option.some.injEq, Prod.mk.injEq] at h
      obtain ⟨-, rfl⟩ := h
      exact ⟨fun v hv => hv, fun v hv => hp v hv (List.not_mem_nil v)⟩
    | cons p rest =>
      simp only [isStoredAux] at h
      cases hscan : scanUses ir p (ir.uses p) rest vis with
      | none => rw [hscan] at h; simp at h
      | some x =>
        obtain ⟨wl', vis'⟩ := x
        rw [hscan] at h
        obtain ⟨fr, h1, h2, h3, h4, h5, h6⟩ := scanUses_some ir p _ _ _ _ _ hscan
        have hnotesc : ¬ escTrigger ir p := by
          intro hesc
          rw [← scanUses_trigger ir p rest vis] at hesc
          rw [hesc] at hscan
          exact Option.noConfusion hscan
        have hclosed_p : ∀ u, useStep ir p u → u ∈ vis' := by
          rintro u ⟨op, hmem, hns, hnc⟩
          exact h6 (u, op) hmem hns hnc
        have hp' : ∀ v ∈ vis', v ∉ wl' →
            ¬ escTrigger ir v ∧ ∀ u, useStep ir v u → u ∈ vis' := by
          intro v hv hvwl
          rw [h2] at hv
          rcases List.mem_append.mp hv with hvfr | hvvis
          · exact absurd (by rw [h1]; exact List.mem_append_left _ hvfr) hvwl
          · by_cases hvp : v = p
            · subst hvp
              exact ⟨hnotesc, hclosed_p⟩
            · have hvrest : v ∉ rest := fun hm =>
                hvwl (by rw [h1]; exact List.mem_append_right _ hm)
              have hv1 := hp v hvvis (by
                intro hm
                rcases List.mem_cons.mp hm with h' | h'
                · exact hvp h'
                · exact hvrest h')
              refine ⟨hv1.1, fun u hu => ?_⟩
              rw [h2]
              exact List.mem_append_right _ (hv1.2 u hu)
        obtain ⟨hsub, hfinal⟩ := ih wl' vis' visF h hp'
        refine ⟨fun v hv => hsub v ?_, hfinal⟩
        rw [h2]
        exact List.mem_append_right _ hv

/-- A duplicate-free list of identifiers below n has length at most n. -/
theorem nodup_length_le (l : List Nat) (n : Nat) (hnd : l.Nodup)
    (hlt : ∀ x ∈ l, x < n) : l.length ≤ n := by
  calc l.length = l.toFinset.card := (List.toFinset_card_of_nodup hnd).symm
    _ ≤ (Finset.range n).card := Finset.card_le_card
        (fun x hx => Finset.mem_range.mpr (hlt x (List.mem_toFinset.mp hx)))
    _ = n := Finset.card_range n

/-- Fuel sufficiency for the escape traversal: each iteration pops one
element, and every push adds a distinct in-range value to the visited
set. -/
theorem isStoredAux_ne_none (ir : IR)
    (hu : ∀ v, v < ir.numValues → ∀ q ∈ ir.uses v, q.1 < ir.numValues) :
    ∀ (f : Nat) (wl vis : List Nat), vis.Nodup → (∀ x ∈ wl, x ∈ vis) →
      (∀ x ∈ vis, x < ir.numValues) →
      wl.length + (ir.numValues - vis.length) < f →
      isStoredAux ir f wl vis ≠ none := by
  intro f
  induction f with
  | zero => intro wl vis _ _ _ hf; exact absurd hf (Nat.not_lt_zero _)
  | succ f ih =>
    intro wl vis hnd hwl hvn hf
    cases wl with
    | nil => simp [isStoredAux]
    | cons p rest =>
      simp only [isStoredAux]
      cases hscan : scanUses ir p (ir.uses p) rest vis with
      | none => simp
      | some x =>
        obtain ⟨wl', vis'⟩ := x
        obtain ⟨fr, h1, h2, h3, h4, h5, h6⟩ := scanUses_some ir p _ _ _ _ _ hscan
        have hp_lt : p < ir.numValues := hvn p (hwl p (List.mem_cons_self _ _))
        have hfr_lt : ∀ x ∈ fr, x < ir.numValues := by
          intro x hx
          obtain ⟨q, hq, he⟩ := h5 x hx
          exact he ▸ hu p hp_lt q hq
        have hnd' : vis'.Nodup := by
          rw [h2]
          exact List.Nodup.append h3 hnd (fun a ha hb => h4 a ha hb)
        have hwl' : ∀ x ∈ wl', x ∈ vis' := by
          intro x hx
          rw [h1] at hx
          rw [h2]
          rcases List.mem_append.mp hx with h' | h'
          · exact List.mem_append_left _ h'
          · exact List.mem_append_right _ (hwl x (List.mem_cons_of_mem _ h'))
        have hvn' : ∀ x ∈ vis', x < ir.numValues := by
          intro x hx
          rw [h2] at hx
          rcases List.mem_append.mp hx with h' | h'
          · exact hfr_lt x h'
          · exact hvn x h'
        have hlen : vis'.length ≤ ir.numValues :=
          nodup_length_le _ _ hnd' hvn'
        have e1 : wl'.length = fr.length + rest.length := by
          rw [h1, List.length_append]
        have e2 : vis'.length = fr.length + vis.length := by
          rw [h2, List.length_append]
        have hflen : wl'.length + (ir.numValues - vis'.length) < f := by
          simp only [List.length_cons] at hf
          omega
        exact ih wl' vis' hnd' hwl' hvn' hflen

/-- On well-formed IR the escape detector always has enough fuel. -/
theorem isStored_ne_none (ir : IR)
    (hu : ∀ v, v < ir.numValues → ∀ q ∈ ir.uses v, q.1 < ir.numValues)
    (P : Nat) (hP : P < ir.numValues) :
    isStoredObjCPointer ir P ≠ none := by
  unfold isStoredObjCPointer
  intro h
  rw [Option.map_eq_none'] at h
  refine isStoredAux_ne_none ir hu (ir.numValues + 2) [P] [P]
    (List.nodup_singleton P) (fun x hx => hx) ?_ ?_ h
  · intro x hx
    rw [List.mem_singleton] at hx
    subst hx
    exact hP
  · simp only [List.length_singleton]
    omega

/-- If the escape detector answers false, no value reachable from P through
the traversed use-graph triggers an escape. -/
theorem isStored_false_reach (ir : IR) (P : Nat)
    (h : isStoredObjCPointer ir P = some false) :
    ∀ Q, Relation.ReflTransGen (useStep ir) P Q → ¬ escTrigger ir Q := by
  unfold isStoredObjCPointer at h
  cases haux : isStoredAux ir (ir.numValues + 2) [P] [P] with
  | none => rw [haux] at h; simp at h
  | some x =>
    obtain ⟨b, visF⟩ := x
    rw [haux] at h
    simp only [Option.map_some', Option.some.injEq] at h
    subst h
    obtain ⟨hsub, hclosed⟩ := isStoredAux_false ir _ _ _ _ haux
      (fun v hv hnv => absurd hv hnv)
    have hPf : P ∈ visF := hsub P (List.mem_singleton_self P)
    intro Q hreach
    have hQ : Q ∈ visF := by
      induction hreach with
      | refl => exact hPf
      | tail hab hbc ihq => exact (hclosed _ ihq).2 _ hbc
    exact (hclosed Q hQ).1

/-- C1 (amended): if some value P reachable from V through the traversed
forward use-graph is a pointer-to-integer cast result and P has at least
one use that is neither a store nor a call, then the escape detector
answers true for V (on well-formed IR). -/
theorem c1_ptrToInt_use_escape (ir : IR) (V P u op : Nat)
    (hu : ∀ v, v < ir.numValues → ∀ q ∈ ir.uses v, q.1 < ir.numValues)
    (hV : V < ir.numValues)
    (hreach : Relation.ReflTransGen (useStep ir) V P)
    (hkind : ir.kind P = VKind.ptrToInt)
    (huse : (u, op) ∈ ir.uses P)
    (h1 : ir.kind u ≠ VKind.store) (h2 : ir.kind u ≠ VKind.call) :
    isStoredObjCPointer ir V = some true := by
  have hnn := isStored_ne_none ir hu V hV
  cases hres : isStoredObjCPointer ir V with
  | none => exact absurd hres hnn
  | some b =>
    cases b with
    | true => rfl
    | false =>
      exact absurd (Or.inr ⟨hkind, (u, op), huse, h1, h2⟩)
        (isStored_false_reach ir V hres P hreach)

theorem c1_ptrToInt_use_escape_witness :
    Relation.ReflTransGen (useStep irC1w) 0 1 ∧
    irC1w.kind 1 = VKind.ptrToInt ∧
    isStoredObjCPointer irC1w 0 = some true ∧
    Option.map Prod.fst (related paC1w 3 [] 0 3) = some true :=
  ⟨Relation.ReflTransGen.single ⟨0, by decide, by decide, by decide⟩,
    by decide,
    c1_ptrToInt_use_escape irC1w 0 1 2 0 (by decide) (by decide)
      (Relation.ReflTransGen.single ⟨0, by decide, by decide, by decide⟩)
      (by decide) (by decide) (by decide) (by decide),
    by decide⟩

/-- C1 (counterexample to the claim as stated): value 1 is a
pointer-to-integer cast result reachable from 0 through the traversed
use-graph, yet the escape detector answers false for 0 (the cast result
has no further use, so the per-use check never fires), and the identified
object 0 compared against the load 2 gives related == false. -/
theorem c1_counterexample :
    Relation.ReflTransGen (useStep irC1cex) 0 1 ∧
    irC1cex.kind 1 = VKind.ptrToInt ∧
    isStoredObjCPointer irC1cex 0 = some false ∧
    irC1cex.kind 2 = VKind.load ∧
    paC1cex.IsObjCIdentifiedObject 0 = true ∧
    Option.map Prod.fst (related paC1cex 3 [] 0 2) = some false :=
  ⟨Relation.ReflTransGen.single ⟨0, by decide, by decide, by decide⟩,
    by decide, by decide, by decide, by decide, by decide⟩

theorem InvP_refl (c : CachedResultsTy) : InvP c c [] :=
  ⟨fun _ _ h => h, List.nodup_nil, fun k hk => absurd hk (List.not_mem_nil k),
    fun k hk => absurd hk (List.not_mem_nil k)⟩

/-- Sequencing two computations composes their cache/trace invariants. -/
theorem InvP_seq {c c1 c2 : CachedResultsTy} {t1 t2 : List ValuePairTy}
    (h1 : InvP c c1 t1) (h2 : InvP c1 c2 t2) : InvP c c2 (t1 ++ t2) := by
  obtain ⟨le1, nd1, fr1, in1⟩ := h1
  obtain ⟨le2, nd2, fr2, in2⟩ := h2
  refine ⟨fun k v hk => le2 k v (le1 k v hk), ?_, ?_, ?_⟩
  · rw [List.nodup_append]
    refine ⟨nd1, nd2, fun k hk1 hk2 => ?_⟩
    obtain ⟨v, hv⟩ := in1 k hk1
    rw [fr2 k hk2] at hv
    exact Option.noConfusion hv
  · intro k hk
    rcases List.mem_append.mp hk with hk | hk
    · exact fr1 k hk
    · cases hl : cacheLookup c k with
      | none => rfl
      | some v =>
        have hv := le1 k v hl
        rw [fr2 k hk] at hv
        exact Option.noConfusion hv
  · intro k hk
    rcases List.mem_append.mp hk with hk | hk
    · obtain ⟨v, hv⟩ := in1 k hk
      exact ⟨v, le2 k v hv⟩
    · exact in2 k hk

/-- A branch that returns with the cache unchanged and an empty trace
trivially satisfies the invariant. -/
theorem InvP_of_const {x : Bool} {c : CachedResultsTy} {r : Bool}
    {c' : CachedResultsTy} {tr : List ValuePairTy}
    (h : (some (x, c, ([] : List ValuePairTy)) : Option RRes) = some (r, c', tr)) :
    InvP c c' tr := by
  simp only [Option.some.injEq, Prod.mk.injEq] at h
  obtain ⟨-, h2, h3⟩ := h
  subst h2
  subst h3
  exact InvP_refl c

/-- Invariant for the short-circuit OR of two rel queries. -/
theorem orChain_inv (rel : RelFun)
    (hrel : ∀ c x y r c' tr, rel c x y = some (r, c', tr) → InvP c c' tr)
    (c : CachedResultsTy) (x1 y1 x2 y2 : Nat) (r : Bool)
    (c' : CachedResultsTy) (tr : List ValuePairTy)
    (h : (match rel c x1 y1 with
          | none => none
          | some (true, c1, t1) => some (true, c1, t1)
          | some (false, c1, t1) =>
            match rel c1 x2 y2 with
            | none => none
            | some (r2, c2, t2) => some (r2, c2, t1 ++ t2)) = some (r, c', tr)) :
    InvP c c' tr := by
  cases h1 : rel c x1 y1 with
  | none => rw [h1] at h; simp at h
  | some x =>
    obtain ⟨r1, c1, t1⟩ := x
    rw [h1] at h
    cases r1 with
    | true =>
      simp only [Option.some.injEq, Prod.mk.injEq] at h
      obtain ⟨-, h2, h3⟩ := h
      subst h2
      subst h3
      exact hrel _ _ _ _ _ _ h1
    | false =>
      dsimp only at h
      cases h2 : rel c1 x2 y2 with
      | none => rw [h2] at h; simp at h
      | some y =>
        obtain ⟨r2, c2, t2⟩ := y
        rw [h2] at h
        simp only [Option.some.injEq, Prod.mk.injEq] at h
        obtain ⟨-, hc, ht⟩ := h
        subst hc
        subst ht
        exact InvP_seq (hrel _ _ _ _ _ _ h1) (hrel _ _ _ _ _ _ h2)

theorem relatedSelectGo_inv (pa : PA) (rel : RelFun)
    (hrel : ∀ c x y r c' tr, rel c x y = some (r, c', tr) → InvP c c' tr) :
    ∀ c A B r c' tr, relatedSelectGo pa rel c A B = some (r, c', tr) →
      InvP c c' tr := by
  intro c A B r c' tr h
  unfold relatedSelectGo at h
  split at h
  · exact orChain_inv rel hrel c _ _ _ _ r c' tr h
  · exact orChain_inv rel hrel c _ _ _ _ r c' tr h

theorem phiSameBlockLoop_inv (pa : PA) (rel : RelFun) (B : Nat)
    (hrel : ∀ c x y r c' tr, rel c x y = some (r, c', tr) → InvP c c' tr) :
    ∀ lst c r c' tr, phiSameBlockLoop pa rel B lst c = some (r, c', tr) →
      InvP c c' tr := by
  intro lst
  induction lst with
  | nil =>
    intro c r c' tr h
    simp only [phiSameBlockLoop] at h
    exact InvP_of_const h
  | cons hd tl ih =>
    obtain ⟨v, blk⟩ := hd
    intro c r c' tr h
    simp only [phiSameBlockLoop] at h
    cases h1 : rel c v (getIncomingValueForBlock (pa.ir.phis B).incoming blk) with
    | none => rw [h1] at h; simp at h
    | some x =>
      obtain ⟨r1, c1, t1⟩ := x
      rw [h1] at h
      cases r1 with
      | true =>
        simp only [Option.some.injEq, Prod.mk.injEq] at h
        obtain ⟨-, hc, ht⟩ := h
        subst hc
        subst ht
        exact hrel _ _ _ _ _ _ h1
      | false =>
        dsimp only at h
        cases h2 : phiSameBlockLoop pa rel B tl c1 with
        | none => rw [h2] at h; simp at h
        | some y =>
          obtain ⟨r2, c2, t2⟩ := y
          rw [h2] at h
          simp only [Option.some.injEq, Prod.mk.injEq] at h
          obtain ⟨-, hc, ht⟩ := h
          subst hc
          subst ht
          exact InvP_seq (hrel _ _ _ _ _ _ h1) (ih c1 _ _ _ h2)

theorem phiUniqueLoop_inv (pa : PA) (rel : RelFun) (B : Nat)
    (hrel : ∀ c x y r c' tr, rel c x y = some (r, c', tr) → InvP c c' tr) :
    ∀ lst seen c r c' tr, phiUniqueLoop pa rel B lst seen c = some (r, c', tr) →
      InvP c c' tr := by
  intro lst
  induction lst with
  | nil =>
    intro seen c r c' tr h
    simp only [phiUniqueLoop] at h
    exact InvP_of_const h
  | cons hd tl ih =>
    obtain ⟨v, blk⟩ := hd
    intro seen c r c' tr h
    simp only [phiUniqueLoop] at h
    split at h
    · exact ih seen c r c' tr h
    · cases h1 : rel c v B with
      | none => rw [h1] at h; simp at h
      | some x =>
        obtain ⟨r1, c1, t1⟩ := x
        rw [h1] at h
        cases r1 with
        | true =>
          simp only [Option.some.injEq, Prod.mk.injEq] at h
          obtain ⟨-, hc, ht⟩ := h
          subst hc
          subst ht
          exact hrel _ _ _ _ _ _ h1
        | false =>
          dsimp only at h
          cases h2 : phiUniqueLoop pa rel B tl (v :: seen) c1 with
          | none => rw [h2] at h; simp at h
          | some y =>
            obtain ⟨r2, c2, t2⟩ := y
            rw [h2] at h
            simp only [Option.some.injEq, Prod.mk.injEq] at h
            obtain ⟨-, hc, ht⟩ := h
            subst hc
            subst ht
            exact InvP_seq (hrel _ _ _ _ _ _ h1) (ih (v :: seen) c1 _ _ _ h2)

theorem relatedPHIGo_inv (pa : PA) (rel : RelFun)
    (hrel : ∀ c x y r c' tr, rel c x y = some (r, c', tr) → InvP c c' tr) :
    ∀ c A B r c' tr, relatedPHIGo pa rel c A B = some (r, c', tr) →
      InvP c c' tr := by
  intro c A B r c' tr h
  unfold relatedPHIGo at h
  split at h
  · exact phiSameBlockLoop_inv pa rel B hrel _ _ _ _ _ h
  · exact phiUniqueLoop_inv pa rel B hrel _ _ _ _ _ _ h

theorem relatedCheckGo_inv (pa : PA) (rel : RelFun)
    (hrel : ∀ c x y r c' tr, rel c x y = some (r, c', tr) → InvP c c' tr) :
    ∀ c A B r c' tr, relatedCheckGo pa rel c A B = some (r, c', tr) →
      InvP c c' tr := by
  intro c A B r c' tr h
  unfold relatedCheckGo at h
  split at h
  · exact InvP_of_const h
  · split at h
    · exact InvP_of_const h
    · exact InvP_of_const h
    · exact InvP_of_const h
    · split at h
      · cases hst : isStoredObjCPointer pa.ir (pa.GetUnderlyingObjCPtr A) with
        | none => rw [hst] at h; exact Option.noConfusion h
        | some st => rw [hst] at h; exact InvP_of_const h
      · split at h
        · cases hst : isStoredObjCPointer pa.ir (pa.GetUnderlyingObjCPtr B) with
          | none => rw [hst] at h; exact Option.noConfusion h
          | some st => rw [hst] at h; exact InvP_of_const h
        · split at h
          · exact InvP_of_const h
          · split at h
            · cases hst : isStoredObjCPointer pa.ir (pa.GetUnderlyingObjCPtr B) with
              | none => rw [hst] at h; exact Option.noConfusion h
              | some st => rw [hst] at h; exact InvP_of_const h
            · split at h
              · exact relatedPHIGo_inv pa rel hrel _ _ _ _ _ _ h
              · split at h
                · exact relatedPHIGo_inv pa rel hrel _ _ _ _ _ _ h
                · split at h
                  · exact relatedSelectGo_inv pa rel hrel _ _ _ _ _ _ h
                  · split at h
                    · exact relatedSelectGo_inv pa rel hrel _ _ _ _ _ _ h
                    · exact InvP_of_const h

/-- The miss path of related: pending insert then final overwrite preserves
existing entries, and the queried pair joins the trace. -/
theorem related_wrap_inv (p : ValuePairTy) (c c2 : CachedResultsTy)
    (trc : List ValuePairTy) (rr : Bool)
    (hl : cacheLookup c p = none)
    (hinv : InvP ((p, true) :: c) c2 trc) :
    InvP c ((p, rr) :: c2) (p :: trc) := by
  obtain ⟨le, nd, fr, indom⟩ := hinv
  refine ⟨?_, ?_, ?_, ?_⟩
  · intro k v hk
    have hkp : p ≠ k := by
      intro he
      rw [he] at hl
      rw [hl] at hk
      exact Option.noConfusion hk
    have h1 : cacheLookup ((p, true) :: c) k = some v := by
      rw [cacheLookup_cons, if_neg hkp]
      exact hk
    have h2 := le k v h1
    rw [cacheLookup_cons, if_neg hkp]
    exact h2
  · rw [List.nodup_cons]
    refine ⟨fun hp => ?_, nd⟩
    have hfr := fr p hp
    rw [cacheLookup_cons, if_pos rfl] at hfr
    exact Option.noConfusion hfr
  · intro k hk
    rcases List.mem_cons.mp hk with rfl | hk'
    · exact hl
    · have hfr := fr k hk'
      rw [cacheLookup_cons] at hfr
      split at hfr
      · exact Option.noConfusion hfr
      · exact hfr
  · intro k hk
    rcases List.mem_cons.mp hk with rfl | hk'
    · exact ⟨rr, by rw [cacheLookup_cons, if_pos rfl]⟩
    · obtain ⟨v, hv⟩ := indom k hk'
      by_cases hkp : p = k
      · exact ⟨rr, by rw [cacheLookup_cons, if_pos hkp]⟩
      · refine ⟨v, ?_⟩
        rw [cacheLookup_cons, if_neg hkp]
        exact hv

/-- Every successful related call satisfies the cache/trace invariant. -/
theorem related_inv (pa : PA) :
    ∀ (fuel : Nat) (c : CachedResultsTy) (A B : Nat) (r : Bool)
      (c' : CachedResultsTy) (tr : List ValuePairTy),
      related pa fuel c A B = some (r, c', tr) → InvP c c' tr := by
  intro fuel
  induction fuel with
  | zero => intro c A B r c' tr h; exact Option.noConfusion h
  | succ f ih =>
    intro c A B r c' tr h
    rw [related_succ] at h
    cases hl : cacheLookup c (orderPair A B) with
    | some v =>
      rw [hl] at h
      simp only [Option.some.injEq, Prod.mk.injEq] at h
      obtain ⟨-, hc, ht⟩ := h
      subst hc
      subst ht
      exact InvP_refl c
    | none =>
      rw [hl] at h
      cases hc2 : relatedCheckGo pa (related pa f) ((orderPair A B, true) :: c)
          (orderPair A B).1 (orderPair A B).2 with
      | none => rw [hc2] at h; exact Option.noConfusion h
      | some x =>
        obtain ⟨rr, c2, trc⟩ := x
        rw [hc2] at h
        simp only [Option.some.injEq, Prod.mk.injEq] at h
        obtain ⟨hr, hc, ht⟩ := h
        subst hr
        subst hc
        subst ht
        exact related_wrap_inv (orderPair A B) c c2 trc rr hl
          (relatedCheckGo_inv pa (related pa f) ih _ _ _ _ _ _ hc2)

/-- After a successful call, the queried pair is cached with the returned
value. -/
theorem related_cached (pa : PA) (fuel : Nat) (c : CachedResultsTy)
    (A B : Nat) (r : Bool) (c' : CachedResultsTy) (tr : List ValuePairTy)
    (h : related pa fuel c A B = some (r, c', tr)) :
    cacheLookup c' (orderPair A B) = some r := by
  cases fuel with
  | zero => exact Option.noConfusion h
  | succ f =>
    rw [related_succ] at h
    cases hl : cacheLookup c (orderPair A B) with
    | some v =>
      rw [hl] at h
      simp only [Option.some.injEq, Prod.mk.injEq] at h
      obtain ⟨hv, hc, -⟩ := h
      subst hc
      rw [hl, hv]
    | none =>
      rw [hl] at h
      cases hc2 : relatedCheckGo pa (related pa f) ((orderPair A B, true) :: c)
          (orderPair A B).1 (orderPair A B).2 with
      | none => rw [hc2] at h; exact Option.noConfusion h
      | some x =>
        obtain ⟨rr, c2, trc⟩ := x
        rw [hc2] at h
        simp only [Option.some.injEq, Prod.mk.injEq] at h
        obtain ⟨hr, hc, -⟩ := h
        subst hr
        subst hc
        rw [cacheLookup_cons, if_pos rfl]

/-- C5: memoization invariant.  For any successful query: the traced pairs
(on which relatedCheck was entered) are pairwise distinct, were uncached on
entry and are cached on exit, existing cache entries are never changed, and
any repeat query returns the stored value with the cache unchanged and an
empty trace (no recomputation). -/
theorem c5_memoization (pa : PA) (fuel : Nat) (c : CachedResultsTy)
    (A B : Nat) (r : Bool) (c' : CachedResultsTy) (tr : List ValuePairTy)
    (h : related pa fuel c A B = some (r, c', tr)) :
    tr.Nodup ∧
    (∀ k ∈ tr, cacheLookup c k = none) ∧
    (∀ k ∈ tr, ∃ v, cacheLookup c' k = some v) ∧
    (∀ k v, cacheLookup c k = some v → cacheLookup c' k = some v) ∧
    ∀ f2, 0 < f2 → related pa f2 c' A B = some (r, c', []) := by
  obtain ⟨le, nd, fr, indom⟩ := related_inv pa fuel c A B r c' tr h
  refine ⟨nd, fr, indom, le, ?_⟩
  intro f2 hf2
  obtain ⟨g, rfl⟩ : ∃ g, f2 = g + 1 := ⟨f2 - 1, by omega⟩
  exact related_hit pa g c' A B (orderPair A B).1 (orderPair A B).2 r rfl
    (related_cached pa fuel c A B r c' tr h)

theorem c5_memoization_witness :
    related paC4 5 [] 0 1 =
      some (true, [((0, 1), true), ((0, 1), true)], [(0, 1)]) ∧
    ([(0, 1)] : List ValuePairTy).Nodup ∧
    related paC4 1 [((0, 1), true), ((0, 1), true)] 0 1 =
      some (true, [((0, 1), true), ((0, 1), true)], []) :=
  ⟨by decide,
    (c5_memoization paC4 5 [] 0 1 true [((0, 1), true), ((0, 1), true)]
      [(0, 1)] (by decide)).1,
    (c5_memoization paC4 5 [] 0 1 true [((0, 1), true), ((0, 1), true)]
      [(0, 1)] (by decide)).2.2.2.2 1 (by decide)⟩

theorem orderPair_lt (A B n : Nat) (hA : A < n) (hB : B < n) :
    (orderPair A B).1 < n ∧ (orderPair A B).2 < n := by
  rcases orderPair_cases A B with h | h
  · rw [h]; exact ⟨hA, hB⟩
  · rw [h]; exact ⟨hB, hA⟩

/-- Cache extension can only shrink the set of uncached pairs. -/
theorem cacheLe_uncached (pa : PA) (c c' : CachedResultsTy)
    (h : cacheLe c c') : uncached pa c' ≤ uncached pa c := by
  apply Finset.card_le_card
  intro p hp
  rw [Finset.mem_filter] at hp ⊢
  refine ⟨hp.1, ?_⟩
  cases hl : cacheLookup c p with
  | none => rfl
  | some v =>
    have hv := h p v hl
    rw [hp.2] at hv
    exact Option.noConfusion hv

/-- The pending insert of an in-range uncached pair strictly decreases the
number of uncached pairs: the C++ termination argument. -/
theorem uncached_cons_lt (pa : PA) (c : CachedResultsTy) (k : ValuePairTy)
    (v : Bool) (h1 : k.1 < pa.ir.numValues) (h2 : k.2 < pa.ir.numValues)
    (hnone : cacheLookup c k = none) :
    uncached pa ((k, v) :: c) < uncached pa c := by
  apply Finset.card_lt_card
  rw [Finset.ssubset_iff_of_subset ?hsub]
  case hsub =>
    intro p hp
    rw [Finset.mem_filter] at hp ⊢
    refine ⟨hp.1, ?_⟩
    have hc := hp.2
    rw [cacheLookup_cons] at hc
    split at hc
    · exact Option.noConfusion hc
    · exact hc
  refine ⟨k, Finset.mem_filter.mpr ⟨?_, hnone⟩, fun hk => ?_⟩
  · unfold allPairs
    exact Finset.mem_product.mpr
      ⟨Finset.mem_range.mpr h1, Finset.mem_range.mpr h2⟩
  · rw [Finset.mem_filter] at hk
    have hc := hk.2
    rw [cacheLookup_cons, if_pos rfl] at hc
    exact Option.noConfusion hc

theorem getIncomingValueForBlock_lt (lst : List (Nat × Nat)) (n : Nat)
    (h : ∀ q ∈ lst, q.1 < n) (hpos : 0 < n) (blk : Nat) :
    getIncomingValueForBlock lst blk < n := by
  induction lst with
  | nil => exact hpos
  | cons hd tl ih =>
    obtain ⟨v, b⟩ := hd
    simp only [getIncomingValueForBlock]
    split
    · exact h (v, b) (List.mem_cons_self _ _)
    · exact ih (fun q hq => h q (List.mem_cons_of_mem _ hq))

/-- Fuel sufficiency for the short-circuit OR of two rel queries. -/
theorem orChain_suff (pa : PA) (rel : RelFun) (F : Nat)
    (hrelS : ∀ c x y, x < pa.ir.numValues → y < pa.ir.numValues →
      uncached pa c < F → rel c x y ≠ none)
    (hrelI : ∀ c x y r c' tr, rel c x y = some (r, c', tr) → InvP c c' tr)
    (c : CachedResultsTy) (x1 y1 x2 y2 : Nat)
    (hx1 : x1 < pa.ir.numValues) (hy1 : y1 < pa.ir.numValues)
    (hx2 : x2 < pa.ir.numValues) (hy2 : y2 < pa.ir.numValues)
    (hc : uncached pa c < F) :
    (match rel c x1 y1 with
     | none => none
     | some (true, c1, t1) => some (true, c1, t1)
     | some (false, c1, t1) =>
       match rel c1 x2 y2 with
       | none => none
       | some (r2, c2, t2) => some (r2, c2, t1 ++ t2)) ≠ none := by
  cases h1 : rel c x1 y1 with
  | none => exact absurd h1 (hrelS c x1 y1 hx1 hy1 hc)
  | some x =>
    obtain ⟨r1, c1, t1⟩ := x
    cases r1 with
    | true => simp
    | false =>
      dsimp only
      have hc1 : uncached pa c1 < F :=
        lt_of_le_of_lt (cacheLe_uncached pa c c1 (hrelI _ _ _ _ _ _ h1).1) hc
      cases h2 : rel c1 x2 y2 with
      | none => exact absurd h2 (hrelS c1 x2 y2 hx2 hy2 hc1)
      | some y => obtain ⟨r2, c2, t2⟩ := y; simp

theorem relatedSelectGo_suff (pa : PA) (rel : RelFun) (F : Nat)
    (hrelS : ∀ c x y, x < pa.ir.numValues → y < pa.ir.numValues →
      uncached pa c < F → rel c x y ≠ none)
    (hrelI : ∀ c x y r c' tr, rel c x y = some (r, c', tr) → InvP c c' tr)
    (A B : Nat)
    (hT : (pa.ir.sels A).tval < pa.ir.numValues)
    (hFv : (pa.ir.sels A).fval < pa.ir.numValues)
    (hTB : (pa.ir.sels B).tval < pa.ir.numValues)
    (hFB : (pa.ir.sels B).fval < pa.ir.numValues)
    (hB : B < pa.ir.numValues) :
    ∀ c, uncached pa c < F → relatedSelectGo pa rel c A B ≠ none := by
  intro c hc
  unfold relatedSelectGo
  split
  · exact orChain_suff pa rel F hrelS hrelI c _ _ _ _ hT hTB hFv hFB hc
  · exact orChain_suff pa rel F hrelS hrelI c _ _ _ _ hT hB hFv hB hc

theorem phiSameBlockLoop_suff (pa : PA) (rel : RelFun) (F : Nat) (B : Nat)
    (hrelS : ∀ c x y, x < pa.ir.numValues → y < pa.ir.numValues →
      uncached pa c < F → rel c x y ≠ none)
    (hrelI : ∀ c x y r c' tr, rel c x y = some (r, c', tr) → InvP c c' tr)
    (hBlt : ∀ blk, getIncomingValueForBlock (pa.ir.phis B).incoming blk <
      pa.ir.numValues) :
    ∀ (lst : List (Nat × Nat)) (c : CachedResultsTy),
      (∀ q ∈ lst, q.1 < pa.ir.numValues) → uncached pa c < F →
      phiSameBlockLoop pa rel B lst c ≠ none := by
  intro lst
  induction lst with
  | nil => intro c _ _; simp [phiSameBlockLoop]
  | cons hd tl ih =>
    obtain ⟨v, blk⟩ := hd
    intro c hlt hc
    simp only [phiSameBlockLoop]
    cases h1 : rel c v (getIncomingValueForBlock (pa.ir.phis B).incoming blk) with
    | none =>
      exact absurd h1
        (hrelS c v _ (hlt (v, blk) (List.mem_cons_self _ _)) (hBlt blk) hc)
    | some x =>
      obtain ⟨r1, c1, t1⟩ := x
      cases r1 with
      | true => simp
      | false =>
        dsimp only
        have hc1 : uncached pa c1 < F :=
          lt_of_le_of_lt (cacheLe_uncached pa c c1 (hrelI _ _ _ _ _ _ h1).1) hc
        have hne2 := ih c1 (fun q hq => hlt q (List.mem_cons_of_mem _ hq)) hc1
        cases h2 : phiSameBlockLoop pa rel B tl c1 with
        | none => exact absurd h2 hne2
        | some y => obtain ⟨r2, c2, t2⟩ := y; simp

theorem phiUniqueLoop_suff (pa : PA) (rel : RelFun) (F : Nat) (B : Nat)
    (hrelS : ∀ c x y, x < pa.ir.numValues → y < pa.ir.numValues →
      uncached pa c < F → rel c x y ≠ none)
    (hrelI : ∀ c x y r c' tr, rel c x y = some (r, c', tr) → InvP c c' tr)
    (hB : B < pa.ir.numValues) :
    ∀ (lst : List (Nat × Nat)) (seen : List Nat) (c : CachedResultsTy),
      (∀ q ∈ lst, q.1 < pa.ir.numValues) → uncached pa c < F →
      phiUniqueLoop pa rel B lst seen c ≠ none := by
  intro lst
  induction lst with
  | nil => intro seen c _ _; simp [phiUniqueLoop]
  | cons hd tl ih =>
    obtain ⟨v, blk⟩ := hd
    intro seen c hlt hc
    simp only [phiUniqueLoop]
    split
    · exact ih seen c (fun q hq => hlt q (List.mem_cons_of_mem _ hq)) hc
    · cases h1 : rel c v B with
      | none =>
        exact absurd h1
          (hrelS c v B (hlt (v, blk) (List.mem_cons_self _ _)) hB hc)
      | some x =>
        obtain ⟨r1, c1, t1⟩ := x
        cases r1 with
        | true => simp
        | false =>
          dsimp only
          have hc1 : uncached pa c1 < F :=
            lt_of_le_of_lt (cacheLe_uncached pa c c1 (hrelI _ _ _ _ _ _ h1).1) hc
          have hne2 := ih (v :: seen) c1
            (fun q hq => hlt q (List.mem_cons_of_mem _ hq)) hc1
          cases h2 : phiUniqueLoop pa rel B tl (v :: seen) c1 with
          | none => exact absurd h2 hne2
          | some y => obtain ⟨r2, c2, t2⟩ := y; simp

theorem relatedPHIGo_suff (pa : PA) (rel : RelFun) (F : Nat)
    (hrelS : ∀ c x y, x < pa.ir.numValues → y < pa.ir.numValues →
      uncached pa c < F → rel c x y ≠ none)
    (hrelI : ∀ c x y r c' tr, rel c x y = some (r, c', tr) → InvP c c' tr)
    (hpos : 0 < pa.ir.numValues) (A B : Nat)
    (hAin : ∀ q ∈ (pa.ir.phis A).incoming, q.1 < pa.ir.numValues)
    (hBin : ∀ q ∈ (pa.ir.phis B).incoming, q.1 < pa.ir.numValues)
    (hB : B < pa.ir.numValues) :
    ∀ c, uncached pa c < F → relatedPHIGo pa rel c A B ≠ none := by
  intro c hc
  unfold relatedPHIGo
  split
  · exact phiSameBlockLoop_suff pa rel F B hrelS hrelI
      (getIncomingValueForBlock_lt _ _ hBin hpos) _ c hAin hc
  · exact phiUniqueLoop_suff pa rel F B hrelS hrelI hB _ [] c hAin hc

theorem relatedCheckGo_suff (pa : PA) (rel : RelFun) (F : Nat) (hwf : WF pa)
    (hrelS : ∀ c x y, x < pa.ir.numValues → y < pa.ir.numValues →
      uncached pa c < F → rel c x y ≠ none)
    (hrelI : ∀ c x y r c' tr, rel c x y = some (r, c', tr) → InvP c c' tr) :
    ∀ (c : CachedResultsTy) (A B : Nat), A < pa.ir.numValues →
      B < pa.ir.numValues → uncached pa c < F →
      relatedCheckGo pa rel c A B ≠ none := by
  intro c A B hA hB hc hcontra
  have hA' : pa.GetUnderlyingObjCPtr A < pa.ir.numValues := hwf.canon_lt A hA
  have hB' : pa.GetUnderlyingObjCPtr B < pa.ir.numValues := hwf.canon_lt B hB
  unfold relatedCheckGo at hcontra
  split at hcontra
  · exact Option.noConfusion hcontra
  · split at hcontra
    · exact Option.noConfusion hcontra
    · exact Option.noConfusion hcontra
    · exact Option.noConfusion hcontra
    · split at hcontra
      · cases hst : isStoredObjCPointer pa.ir (pa.GetUnderlyingObjCPtr A) with
        | none => exact absurd hst (isStored_ne_none pa.ir hwf.uses_lt _ hA')
        | some st => rw [hst] at hcontra; exact Option.noConfusion hcontra
      · split at hcontra
        · cases hst : isStoredObjCPointer pa.ir (pa.GetUnderlyingObjCPtr B) with
          | none => exact absurd hst (isStored_ne_none pa.ir hwf.uses_lt _ hB')
          | some st => rw [hst] at hcontra; exact Option.noConfusion hcontra
        · split at hcontra
          · exact Option.noConfusion hcontra
          · split at hcontra
            · cases hst : isStoredObjCPointer pa.ir (pa.GetUnderlyingObjCPtr B) with
              | none =>
                exact absurd hst (isStored_ne_none pa.ir hwf.uses_lt _ hB')
              | some st => rw [hst] at hcontra; exact Option.noConfusion hcontra
            · split at hcontra
              · exact absurd hcontra
                  (relatedPHIGo_suff pa rel F hrelS hrelI hwf.pos _ _
                    (hwf.phi_lt _ hA') (hwf.phi_lt _ hB') hB' c hc)
              · split at hcontra
                · exact absurd hcontra
                    (relatedPHIGo_suff pa rel F hrelS hrelI hwf.pos _ _
                      (hwf.phi_lt _ hB') (hwf.phi_lt _ hA') hA' c hc)
                · split at hcontra
                  · exact absurd hcontra
                      (relatedSelectGo_suff pa rel F hrelS hrelI _ _
                        (hwf.sel_lt _ hA').1 (hwf.sel_lt _ hA').2
                        (hwf.sel_lt _ hB').1 (hwf.sel_lt _ hB').2 hB' c hc)
                  · split at hcontra
                    · exact absurd hcontra
                        (relatedSelectGo_suff pa rel F hrelS hrelI _ _
                          (hwf.sel_lt _ hB').1 (hwf.sel_lt _ hB').2
                          (hwf.sel_lt _ hA').1 (hwf.sel_lt _ hA').2 hA' c hc)
                    · exact Option.noConfusion hcontra

/-- Fuel sufficiency for related: fuel beyond the number of in-range
uncached pairs guarantees an answer, on any IR, cyclic phi/select graphs
included. -/
theorem related_suff (pa : PA) (hwf : WF pa) :
    ∀ (fuel : Nat) (c : CachedResultsTy) (A B : Nat),
      A < pa.ir.numValues → B < pa.ir.numValues → uncached pa c < fuel →
      related pa fuel c A B ≠ none := by
  intro fuel
  induction fuel with
  | zero => intro c A B _ _ hf; exact absurd hf (Nat.not_lt_zero _)
  | succ f ih =>
    intro c A B hA hB hf
    rw [related_succ]
    cases hl : cacheLookup c (orderPair A B) with
    | some v => simp
    | none =>
      have hab := orderPair_lt A B pa.ir.numValues hA hB
      have hlt := uncached_cons_lt pa c (orderPair A B) true hab.1 hab.2 hl
      have hc1 : uncached pa ((orderPair A B, true) :: c) < f := by omega
      cases hc2 : relatedCheckGo pa (related pa f) ((orderPair A B, true) :: c)
          (orderPair A B).1 (orderPair A B).2 with
      | none =>
        exact absurd hc2
          (relatedCheckGo_suff pa (related pa f) f hwf
            (fun c' x y hx hy hcc => ih c' x y hx hy hcc)
            (fun c' x y r c'' tr h => related_inv pa f c' x y r c'' tr h)
            _ _ _ hab.1 hab.2 hc1)
      | some x => obtain ⟨r, c2, tr⟩ := x; simp

/-- C4: on every finite well-formed IR, related terminates: any fuel
exceeding the number of uncached in-range pairs yields an answer, cyclic
phi/select graphs included (a re-entrant pair is answered by its own
pending cache entry). -/
theorem c4_related_terminates (pa : PA) (hwf : WF pa) (fuel : Nat)
    (c : CachedResultsTy) (A B : Nat) (hA : A < pa.ir.numValues)
    (hB : B < pa.ir.numValues) (hf : uncached pa c < fuel) :
    related pa fuel c A B ≠ none :=
  related_suff pa hwf fuel c A B hA hB hf

theorem c4_related_terminates_witness :
    related paC4 5 [] 0 1 ≠ none ∧
    Option.map Prod.fst (related paC4 5 [] 0 1) = some true :=
  ⟨c4_related_terminates paC4
      ⟨by decide, by decide, by decide, by decide, by decide⟩ 5 [] 0 1
      (by decide) (by decide) (by decide),
    by decide⟩

/-- relatedSelect reduction when B is a select on the same condition
value. -/
theorem selectGo_sameCond (pa : PA) (rel : RelFun) (c : CachedResultsTy)
    (A B : Nat) (hkB : pa.ir.kind B = VKind.select)
    (hcond : (pa.ir.sels A).cond = (pa.ir.sels B).cond) :
    relatedSelectGo pa rel c A B =
      match rel c (pa.ir.sels A).tval (pa.ir.sels B).tval with
      | none => none
      | some (true, c1, t1) => some (true, c1, t1)
      | some (false, c1, t1) =>
        match rel c1 (pa.ir.sels A).fval (pa.ir.sels B).fval with
        | none => none
        | some (r2, c2, t2) => some (r2, c2, t1 ++ t2) := by
  unfold relatedSelectGo
  rw [if_pos ⟨hkB, hcond⟩]

/-- relatedPHI reduction when B is a phi in the same block as A. -/
theorem phiGo_sameBlock (pa : PA) (rel : RelFun) (c : CachedResultsTy)
    (A B : Nat) (hkB : pa.ir.kind B = VKind.phi)
    (hblk : (pa.ir.phis B).block = (pa.ir.phis A).block) :
    relatedPHIGo pa rel c A B =
      phiSameBlockLoop pa rel B (pa.ir.phis A).incoming c := by
  unfold relatedPHIGo
  rw [if_pos ⟨hkB, hblk⟩]

/-- The same-block loop realizes the short-circuit OR over corresponding
incoming edges described by phiArmsOr. -/
theorem phiSameBlockLoop_arms (pa : PA) (f : Nat) (B : Nat) :
    ∀ (lst : List (Nat × Nat)) (c : CachedResultsTy) (r : Bool)
      (c' : CachedResultsTy) (tr : List ValuePairTy),
      phiSameBlockLoop pa (related pa f) B lst c = some (r, c', tr) →
      phiArmsOr pa f B lst c r := by
  intro lst
  induction lst with
  | nil =>
    intro c r c' tr h
    simp only [phiSameBlockLoop, Option.some.injEq, Prod.mk.injEq] at h
    exact h.1.symm
  | cons hd tl ih =>
    obtain ⟨v, blk⟩ := hd
    intro c r c' tr h
    simp only [phiSameBlockLoop] at h
    cases h1 : related pa f c v
        (getIncomingValueForBlock (pa.ir.phis B).incoming blk) with
    | none => rw [h1] at h; simp at h
    | some x =>
      obtain ⟨r1, c1, t1⟩ := x
      rw [h1] at h
      cases r1 with
      | true =>
        simp only [Option.some.injEq, Prod.mk.injEq] at h
        exact ⟨true, c1, t1, h1, Or.inl ⟨rfl, h.1.symm⟩⟩
      | false =>
        dsimp only at h
        cases h2 : phiSameBlockLoop pa (related pa f) B tl c1 with
        | none => rw [h2] at h; simp at h
        | some y =>
          obtain ⟨r2, c2, t2⟩ := y
          rw [h2] at h
          simp only [Option.some.injEq, Prod.mk.injEq] at h
          obtain ⟨hr, -, -⟩ := h
          exact ⟨false, c1, t1, h1, Or.inr ⟨rfl, ih c1 r c2 t2 (hr ▸ h2)⟩⟩

/-- C6: two selects on the same condition value, reached by the
structural-decomposition step, are compared arm by arm: the result is the
short-circuit OR of the relatedness of the true arms and of the false
arms, with the cache threaded through. -/
theorem c6_select_same_cond (pa : PA) (f : Nat) (c : CachedResultsTy)
    (A B a b : Nat)
    (hord : orderPair A B = (a, b))
    (hmiss : cacheLookup c (a, b) = none)
    (hne : pa.GetUnderlyingObjCPtr a ≠ pa.GetUnderlyingObjCPtr b)
    (hAA : pa.aliasAA (pa.GetUnderlyingObjCPtr a) (pa.GetUnderlyingObjCPtr b) =
      AliasResult.mayAlias)
    (hIdA : pa.IsObjCIdentifiedObject (pa.GetUnderlyingObjCPtr a) = false)
    (hIdB : pa.IsObjCIdentifiedObject (pa.GetUnderlyingObjCPtr b) = false)
    (hkA : pa.ir.kind (pa.GetUnderlyingObjCPtr a) = VKind.select)
    (hkB : pa.ir.kind (pa.GetUnderlyingObjCPtr b) = VKind.select)
    (hcond : (pa.ir.sels (pa.GetUnderlyingObjCPtr a)).cond =
      (pa.ir.sels (pa.GetUnderlyingObjCPtr b)).cond) :
    ∀ r c' tr, related pa (f + 1) c A B = some (r, c', tr) →
      ∃ r1 c1 tr1,
        related pa f (((a, b), true) :: c)
            (pa.ir.sels (pa.GetUnderlyingObjCPtr a)).tval
            (pa.ir.sels (pa.GetUnderlyingObjCPtr b)).tval = some (r1, c1, tr1) ∧
        ((r1 = true ∧ r = true) ∨
          (r1 = false ∧ ∃ r2 c2 tr2,
            related pa f c1 (pa.ir.sels (pa.GetUnderlyingObjCPtr a)).fval
                (pa.ir.sels (pa.GetUnderlyingObjCPtr b)).fval =
              some (r2, c2, tr2) ∧ r = r2)) := by
  intro r c' tr h
  rw [related_miss pa f c A B a b hord hmiss,
    checkGo_selA pa _ _ a b hne hAA hIdA hIdB hkA
      (fun hp => by rw [hkB] at hp; exact VKind.noConfusion hp),
    selectGo_sameCond pa _ _ _ _ hkB hcond] at h
  cases h1 : related pa f (((a, b), true) :: c)
      (pa.ir.sels (pa.GetUnderlyingObjCPtr a)).tval
      (pa.ir.sels (pa.GetUnderlyingObjCPtr b)).tval with
  | none => rw [h1] at h; simp at h
  | some x =>
    obtain ⟨r1, c1, t1⟩ := x
    rw [h1] at h
    cases r1 with
    | true =>
      simp only [Option.some.injEq, Prod.mk.injEq] at h
      exact ⟨true, c1, t1, rfl, Or.inl ⟨rfl, h.1.symm⟩⟩
    | false =>
      dsimp only at h
      cases h2 : related pa f c1
          (pa.ir.sels (pa.GetUnderlyingObjCPtr a)).fval
          (pa.ir.sels (pa.GetUnderlyingObjCPtr b)).fval with
      | none => rw [h2] at h; simp at h
      | some y =>
        obtain ⟨r2, c2, t2⟩ := y
        rw [h2] at h
        simp only [Option.some.injEq, Prod.mk.injEq] at h
        exact ⟨false, c1, t1, rfl,
          Or.inr ⟨rfl, r2, c2, t2, h2, h.1.symm⟩⟩

theorem c6_select_same_cond_witness :
    (paC6.ir.sels 0).cond = (paC6.ir.sels 1).cond ∧
    Option.map Prod.fst (related paC6 5 [((0, 1), true)] 2 3) = some false ∧
    Option.map Prod.fst (related paC6 6 [] 0 1) = some true ∧
    (∃ r1 c1 tr1,
      related paC6 5 [((0, 1), true)] 2 3 = some (r1, c1, tr1) ∧
      ((r1 = true ∧ true = true) ∨
        (r1 = false ∧ ∃ r2 c2 tr2,
          related paC6 5 c1 4 5 = some (r2, c2, tr2) ∧ true = r2))) :=
  ⟨by decide, by decide, by decide,
    c6_select_same_cond paC6 5 [] 0 1 0 1 (by decide) (by decide) (by decide)
      (by decide) (by decide) (by decide) (by decide) (by decide) (by decide)
      true
      [((0, 1), true), ((4, 5), true), ((4, 5), true), ((2, 3), false),
        ((2, 3), true), ((0, 1), true)]
      [(0, 1), (2, 3), (4, 5)] (by decide)⟩

/-- C7: two phis in the same block, reached by the structural-decomposition
step, are compared edge by edge: the result is the short-circuit OR, over
the incoming edges of the first phi, of the relatedness of its incoming
value and the second phi's incoming value for the same predecessor block;
non-corresponding cross pairs are never queried. -/
theorem c7_phi_same_block (pa : PA) (f : Nat) (c : CachedResultsTy)
    (A B a b : Nat)
    (hord : orderPair A B = (a, b))
    (hmiss : cacheLookup c (a, b) = none)
    (hne : pa.GetUnderlyingObjCPtr a ≠ pa.GetUnderlyingObjCPtr b)
    (hAA : pa.aliasAA (pa.GetUnderlyingObjCPtr a) (pa.GetUnderlyingObjCPtr b) =
      AliasResult.mayAlias)
    (hIdA : pa.IsObjCIdentifiedObject (pa.GetUnderlyingObjCPtr a) = false)
    (hIdB : pa.IsObjCIdentifiedObject (pa.GetUnderlyingObjCPtr b) = false)
    (hkA : pa.ir.kind (pa.GetUnderlyingObjCPtr a) = VKind.phi)
    (hkB : pa.ir.kind (pa.GetUnderlyingObjCPtr b) = VKind.phi)
    (hblk : (pa.ir.phis (pa.GetUnderlyingObjCPtr b)).block =
      (pa.ir.phis (pa.GetUnderlyingObjCPtr a)).block) :
    ∀ r c' tr, related pa (f + 1) c A B = some (r, c', tr) →
      phiArmsOr pa f (pa.GetUnderlyingObjCPtr b)
        (pa.ir.phis (pa.GetUnderlyingObjCPtr a)).incoming
        (((a, b), true) :: c) r := by
  intro r c' tr h
  rw [related_miss pa f c A B a b hord hmiss,
    checkGo_phiA pa _ _ a b hne hAA hIdA hIdB hkA,
    phiGo_sameBlock pa _ _ _ _ hkB hblk] at h
  cases h1 : phiSameBlockLoop pa (related pa f) (pa.GetUnderlyingObjCPtr b)
      (pa.ir.phis (pa.GetUnderlyingObjCPtr a)).incoming (((a, b), true) :: c) with
  | none => rw [h1] at h; simp at h
  | some x =>
    obtain ⟨r0, c0, t0⟩ := x
    rw [h1] at h
    simp only [Option.some.injEq, Prod.mk.injEq] at h
    obtain ⟨hr, -, -⟩ := h
    exact phiSameBlockLoop_arms pa f _ _ _ _ _ _ (hr ▸ h1)

theorem c7_phi_same_block_witness :
    (paC7.ir.phis 1).block = (paC7.ir.phis 0).block ∧
    Option.map Prod.fst (related paC7 6 [] 2 5) = some true ∧
    Option.map Prod.fst (related paC7 6 [] 0 1) = some false ∧
    phiArmsOr paC7 5 1 [(2, 10), (3, 11)] [((0, 1), true)] false :=
  ⟨by decide, by decide, by decide,
    c7_phi_same_block paC7 5 [] 0 1 0 1 (by decide) (by decide) (by decide)
      (by decide) (by decide) (by decide) (by decide) (by decide) (by decide)
      false
      [((0, 1), false), ((3, 5), false), ((3, 5), true), ((2, 4), false),
        ((2, 4), true), ((0, 1), true)]
      [(0, 1), (2, 4), (3, 5)] (by decide)⟩

theorem c10_both_loads_first_escape_witness :
    isStoredObjCPointer paC10.ir 0 = some false ∧
    isStoredObjCPointer paC10.ir 1 = some true ∧
    Option.map Prod.fst (related paC10 3 [] 0 1) = some false :=
  ⟨by decide, by decide,
    c10_both_loads_first_escape paC10 3 [] 0 1 0 1 false (by decide)
      (by decide) (by decide) (by decide) (by decide) (by decide) (by decide)
      (by decide) (by decide) (by decide)⟩

end Provenance
